import Mathlib

/-!
# depict: the BK-tree index (`bktree.go`) over `ImageInfo` (`depict.go`)

A shallow embedding of the metric-tree index of `depict`.

* `BMVHash` and its `HammingDistance` are not part of the two source files, so
  the hash type `H` and the function `hd : H → H → Int` are parameters.
* Go's `int` is taken to be 64 bits wide: values are `Int`s and the two
  arithmetic operations of `Search` (`dist-radius`, `dist+radius`) wrap around
  with `wrapInt`.
* `map[int]*bkTreeNode` is an association list of entries; `range` over the map
  visits the entries in list order (Go leaves the order unspecified, this is one
  of the admissible orders) and an assignment to an absent key appends an entry.
* The `for { ... }` worklist loops take a fuel argument.  A run ends in
  `Run.done`, in `Run.fault` (indexing `candidates[0]` of an empty slice) or in
  `Run.outOfFuel`; the entry points supply the number of nodes as fuel.
* `sync.Mutex` is left out: the embedding is sequential.
-/

set_option autoImplicit false

/-! ## Data model -/

/-- The `ImageInfo` struct of `depict.go`. -/
structure ImageInfo (H : Type) where
  Hash : H
  Name : String
deriving DecidableEq, Repr

/-- The `bkTreeNode` struct: an image and the children keyed by distance. -/
inductive bkTreeNode (H : Type) where
  | mk (Image : ImageInfo H) (Children : List (Int × bkTreeNode H))

/-- Field `Image` of a node. -/
def bkTreeNode.Image {H : Type} : bkTreeNode H → ImageInfo H
  | .mk i _ => i

/-- Field `Children` of a node, as the list of the entries of the map. -/
def bkTreeNode.Children {H : Type} : bkTreeNode H → List (Int × bkTreeNode H)
  | .mk _ cs => cs

/-- The `BKTree` struct: `Root` is `none` for the nil pointer. -/
structure BKTree (H : Type) where
  Root : Option (bkTreeNode H)

/-- Outcome of a loop run. -/
inductive Run (α : Type) where
  | done (a : α)
  | fault
  | outOfFuel
deriving DecidableEq, Repr

/-- Value of a 64-bit two's complement `int` holding the exact result `x`. -/
def wrapInt (x : Int) : Int := (x + 2 ^ 63) % 2 ^ 64 - 2 ^ 63

/-- Largest value of a 64-bit `int`. -/
def maxInt : Int := 2 ^ 63 - 1

section Model

variable {H : Type} (hd : H → H → Int)

/-- `ImageInfo.DistanceFrom`: `a.Hash.HammingDistance(b.Hash)`. -/
def DistanceFrom (a b : ImageInfo H) : Int := hd a.Hash b.Hash

/-- `newbkTreeNode`: a node with an empty children map. -/
def newbkTreeNode (ii : ImageInfo H) : bkTreeNode H := .mk ii []

mutual
/-- The nodes of a subtree, the node itself first. -/
def bkTreeNode.nodes : bkTreeNode H → List (bkTreeNode H)
  | .mk i cs => .mk i cs :: nodesChildren cs
/-- The nodes below the entries of a children map. -/
def nodesChildren : List (Int × bkTreeNode H) → List (bkTreeNode H)
  | [] => []
  | (_, c) :: rest => c.nodes ++ nodesChildren rest
end

/-- The nodes in the subtrees of a worklist. -/
def allNodes (candidates : List (bkTreeNode H)) : List (bkTreeNode H) :=
  candidates.flatMap bkTreeNode.nodes

/-- Number of nodes of a subtree. -/
def bkTreeNode.size (t : bkTreeNode H) : Nat := t.nodes.length

/-- The images stored in a subtree. -/
def bkTreeNode.items (t : bkTreeNode H) : List (ImageInfo H) :=
  t.nodes.map bkTreeNode.Image

/-- The nodes of a tree. -/
def BKTree.nodes (tree : BKTree H) : List (bkTreeNode H) :=
  match tree.Root with
  | none => []
  | some root => root.nodes

/-- The images stored in a tree. -/
def BKTree.items (tree : BKTree H) : List (ImageInfo H) :=
  tree.nodes.map bkTreeNode.Image

/-- Number of nodes of a tree. -/
def BKTree.size (tree : BKTree H) : Nat := tree.nodes.length

/-- Map read `m[key]`: the child stored under `key`, `none` for the nil a
missing key yields. -/
def getChild (key : Int) : List (Int × bkTreeNode H) → Option (bkTreeNode H)
  | [] => none
  | (k, c) :: rest => if k = key then some c else getChild key rest

/-! ## Add -/

mutual
/-- The descent loop of `Add` (lines 38-46) from `curNode`, returning the
subtree as the loop leaves it: `dist` is computed against the current node and
the children map is read at `dist`. -/
def AddLoop (val : ImageInfo H) : bkTreeNode H → bkTreeNode H
  | .mk img cs => .mk img (AddChildren val (DistanceFrom hd img val) cs)
/-- The read `curNode.Children[dist]` and what follows it: with no entry under
`dist` the new node is stored there (line 42), otherwise the loop goes on from
the child found (line 45). -/
def AddChildren (val : ImageInfo H) (dist : Int) :
    List (Int × bkTreeNode H) → List (Int × bkTreeNode H)
  | [] => [(dist, newbkTreeNode val)]
  | (k, c) :: rest =>
    if k = dist then (k, AddLoop val c) :: rest
    else (k, c) :: AddChildren val dist rest
end

/-- `BKTree.Add`. -/
def BKTree.Add (tree : BKTree H) (val : ImageInfo H) : BKTree H :=
  match tree.Root with
  | none => { Root := some (newbkTreeNode val) }
  | some root => { Root := some (AddLoop hd val root) }

/-- The tree obtained from the empty tree by adding the images of `xs` in order. -/
def AddAll (xs : List (ImageInfo H)) : BKTree H :=
  xs.foldl (BKTree.Add hd) { Root := none }

/-! ## Search -/

/-- The children a `range` loop appends to the worklist: those whose key lies
in the closed window `[low, high]` (lines 69-73). -/
def inWindow (low high : Int) (cs : List (Int × bkTreeNode H)) : List (bkTreeNode H) :=
  (cs.filter (fun e => decide (e.1 ≥ low ∧ e.1 ≤ high))).map Prod.snd

/-- The loop of `Search` (lines 58-77). -/
def SearchLoop (val : ImageInfo H) (radius : Int) :
    Nat → List (bkTreeNode H) → List (ImageInfo H) → Run (List (ImageInfo H))
  | 0, _, _ => .outOfFuel
  | _ + 1, [], _ => .fault
  | fuel + 1, cand :: candidates, results =>
    let dist := DistanceFrom hd cand.Image val
    let results :=
      if dist ≤ radius ∧ cand.Image.Name ≠ val.Name then results ++ [cand.Image] else results
    let low := wrapInt (dist - radius)
    let high := wrapInt (dist + radius)
    let candidates := candidates ++ inWindow low high cand.Children
    if candidates.isEmpty then .done results
    else SearchLoop val radius fuel candidates results

/-- `BKTree.Search`. -/
def BKTree.Search (tree : BKTree H) (val : ImageInfo H) (radius : Int) : Run (List (ImageInfo H)) :=
  match tree.Root with
  | none => .done []
  | some root => SearchLoop hd val radius root.size [root] []

/-- What `Search` appends to `results` for one candidate (lines 62-66). -/
def ownMatch (val : ImageInfo H) (radius : Int) (img : ImageInfo H) : List (ImageInfo H) :=
  if DistanceFrom hd img val ≤ radius ∧ img.Name ≠ val.Name then [img] else []

mutual
/-- The matches of `Search` below a node, subtree by subtree: the node's own
match, then the matches below each child whose key lies in the node's window. -/
def bkTreeNode.prunedMatches (val : ImageInfo H) (radius : Int) :
    bkTreeNode H → List (ImageInfo H)
  | .mk img cs =>
    ownMatch hd val radius img ++
      prunedMatchesChildren val radius
        (wrapInt (DistanceFrom hd img val - radius)) (wrapInt (DistanceFrom hd img val + radius)) cs
/-- The matches below the children whose key lies in `[low, high]`. -/
def prunedMatchesChildren (val : ImageInfo H) (radius : Int) (low high : Int) :
    List (Int × bkTreeNode H) → List (ImageInfo H)
  | [] => []
  | (k, c) :: rest =>
    (if k ≥ low ∧ k ≤ high then c.prunedMatches val radius else []) ++
      prunedMatchesChildren val radius low high rest
end

/-! ## SearchByName -/

/-- The loop of `SearchByName` (lines 89-103). -/
def SearchByNameLoop (name : String) :
    Nat → List (bkTreeNode H) → Run (Option (ImageInfo H))
  | 0, _ => .outOfFuel
  | _ + 1, [] => .fault
  | fuel + 1, cand :: candidates =>
    if cand.Image.Name = name then .done (some cand.Image)
    else
      let candidates := candidates ++ cand.Children.map Prod.snd
      if candidates.isEmpty then .done none
      else SearchByNameLoop name fuel candidates

/-- `BKTree.SearchByName`: `none` is the nil pointer. -/
def BKTree.SearchByName (tree : BKTree H) (name : String) : Run (Option (ImageInfo H)) :=
  match tree.Root with
  | none => .done none
  | some root => SearchByNameLoop name root.size [root]

/-! ## SearchSimilars -/

/-- Map read `_, found := m[key]`. -/
def hasKey (key : String) (m : List (String × List String)) : Bool :=
  m.any (fun e => e.1 == key)

/-- Map read `m[key]`, the nil slice for a missing key. -/
def getList (key : String) : List (String × List String) → List String
  | [] => []
  | (k, v) :: rest => if k = key then v else getList key rest

/-- Map write `m[key] = v`. -/
def setList (key : String) (v : List String) :
    List (String × List String) → List (String × List String)
  | [] => [(key, v)]
  | (k, w) :: rest => if k = key then (k, v) :: rest else (k, w) :: setList key v rest

/-- The body of the loop over the matches of one node (lines 122-127). -/
def recordMatch (candName : String) (results : List (String × List String))
    (ii : ImageInfo H) : List (String × List String) :=
  if hasKey ii.Name results then results
  else setList candName (getList candName results ++ [ii.Name]) results

/-- The loop of `SearchSimilars` (lines 117-136). -/
def SearchSimilarsLoop (tree : BKTree H) (radius : Int) :
    Nat → List (bkTreeNode H) → List (String × List String) →
      Run (List (String × List String))
  | 0, _, _ => .outOfFuel
  | _ + 1, [], _ => .fault
  | fuel + 1, cand :: candidates, results =>
    match BKTree.Search hd tree cand.Image radius with
    | .done found =>
      let results := found.foldl (recordMatch cand.Image.Name) results
      let candidates := candidates ++ cand.Children.map Prod.snd
      if candidates.isEmpty then .done results
      else SearchSimilarsLoop tree radius fuel candidates results
    | .fault => .fault
    | .outOfFuel => .outOfFuel

/-- `BKTree.SearchSimilars`: the nil map is the empty association list. -/
def BKTree.SearchSimilars (tree : BKTree H) (radius : Int) : Run (List (String × List String)) :=
  match tree.Root with
  | none => .done []
  | some root => SearchSimilarsLoop hd tree radius root.size [root] []

end Model

/-! ## Concrete distances and trees -/

/-- The difference-based distance of the scenario: `|hash(a) - hash(b)|`. -/
def absDiff (a b : Int) : Int := |a - b|

/-- The Hamming distance of one-bit hashes. -/
def bitDistance (a b : Bool) : Int := if a = b then 0 else 1

/-! ## Breadth-first order and the reference fold of SearchSimilars -/

section Reference

variable {H : Type} (hd : H → H → Int)

/-- The children of the nodes of a level, left to right. -/
def childrenOf (level : List (bkTreeNode H)) : List (bkTreeNode H) :=
  level.flatMap (fun p => p.Children.map Prod.snd)

/-- The sequence of candidates a worklist loop takes when it appends all the
children of each candidate (the loops of `SearchByName` and `SearchSimilars`). -/
def bfsQueue : Nat → List (bkTreeNode H) → List (bkTreeNode H)
  | 0, _ => []
  | _ + 1, [] => []
  | fuel + 1, cand :: candidates =>
    cand :: bfsQueue fuel (candidates ++ cand.Children.map Prod.snd)

/-- Breadth-first order, level by level: a level, then the levels below it. -/
def bfsLevels : Nat → List (bkTreeNode H) → List (bkTreeNode H)
  | 0, _ => []
  | n + 1, level =>
    if level.isEmpty then [] else level ++ bfsLevels n (childrenOf level)

/-- The nodes of a tree in breadth-first order: the root, its children, their
children, and so on. -/
def BKTree.bfsOrder (tree : BKTree H) : List (bkTreeNode H) :=
  match tree.Root with
  | none => []
  | some root => bfsLevels root.size [root]

/-- The list `Search` returns (empty when the run does not end normally). -/
def searchResults (tree : BKTree H) (val : ImageInfo H) (radius : Int) : List (ImageInfo H) :=
  match tree.Search hd val radius with
  | .done res => res
  | _ => []

/-- The reference fold of `SearchSimilars`, following the specification: visit
the nodes in breadth-first order starting with an empty mapping; for each
visited node `n` and each item `m` of `Search(n.item, radius)` in order, if
`name(m)` is not currently a key of the mapping, append `name(m)` to the list
stored under key `name(n)`; otherwise record nothing. -/
def similarsReference (tree : BKTree H) (radius : Int) : List (String × List String) :=
  tree.bfsOrder.foldl
    (fun mapping n =>
      (searchResults hd tree n.Image radius).foldl
        (fun mapping m =>
          if hasKey m.Name mapping = false then
            setList n.Image.Name (getList n.Image.Name mapping ++ [m.Name]) mapping
          else mapping)
        mapping)
    []

end Reference

/-! ## Properties of trees and distances -/

section Properties

variable {H : Type} (hd : H → H → Int)

/-- The distance is non-negative, symmetric and satisfies the triangle inequality. -/
def IsMetric : Prop :=
  (∀ a b, 0 ≤ hd a b) ∧ (∀ a b, hd a b = hd b a) ∧ (∀ a b c, hd a c ≤ hd a b + hd b c)

/-- Every non-root node is stored in its parent's children under the distance
between the parent's image and its own. -/
def BKTree.PlacedByDistance (tree : BKTree H) : Prop :=
  ∀ p ∈ tree.nodes, ∀ e ∈ p.Children, e.1 = DistanceFrom hd p.Image e.2.Image

/-- No node has two children stored under the same key. -/
def BKTree.KeysDistinct (tree : BKTree H) : Prop :=
  ∀ p ∈ tree.nodes, (p.Children.map Prod.fst).Nodup

/-- Every image stored below the child under key `k` of a node is at distance
`k` from the node's image. -/
def BKTree.SubtreeDistances (tree : BKTree H) : Prop :=
  ∀ p ∈ tree.nodes, ∀ e ∈ p.Children, ∀ x ∈ e.2.items, DistanceFrom hd p.Image x = e.1

end Properties

/-! ## The populate step of `main`, run sequentially -/

section Populate

variable {H : Type} (hd : H → H → Int)

/-- The body of one worker of `main` (lines 147-150) for the image `x` of a
file: `Add` only when `SearchByName` of the file name returns nil. -/
def populateStep (tree : BKTree H) (x : ImageInfo H) : Run (BKTree H) :=
  match tree.SearchByName x.Name with
  | .done none => .done (tree.Add hd x)
  | .done (some _) => .done tree
  | .fault => .fault
  | .outOfFuel => .outOfFuel

/-- The populate loop of `main` (lines 140-152) with the workers run one after
the other, in the order of `xs`. -/
def populate (tree : BKTree H) : List (ImageInfo H) → Run (BKTree H)
  | [] => .done tree
  | x :: rest =>
    match populateStep hd tree x with
    | .done tree1 => populate tree1 rest
    | .fault => .fault
    | .outOfFuel => .outOfFuel

end Populate

/-! ## The descent of Add as a loop, depth and positions -/

section Descent

variable {H : Type} (hd : H → H → Int)

/-- Map write `m[key] = child`. -/
def setChild (key : Int) (child : bkTreeNode H) :
    List (Int × bkTreeNode H) → List (Int × bkTreeNode H)
  | [] => [(key, child)]
  | (k, c) :: rest =>
    if k = key then (k, child) :: rest else (k, c) :: setChild key child rest

/-- The `for` loop of `Add` (lines 38-46) with a bound on its iterations: one
unit of fuel per iteration.  The subtree of `curNode` is returned as the loop
leaves it; the entry of the parent keeps pointing to the child it descends to. -/
def AddDescent (val : ImageInfo H) : Nat → bkTreeNode H → Run (bkTreeNode H)
  | 0, _ => .outOfFuel
  | fuel + 1, curNode =>
    let dist := DistanceFrom hd curNode.Image val
    match getChild dist curNode.Children with
    | none =>
      .done (.mk curNode.Image (setChild dist (newbkTreeNode val) curNode.Children))
    | some target =>
      match AddDescent val fuel target with
      | .done target1 => .done (.mk curNode.Image (setChild dist target1 curNode.Children))
      | .fault => .fault
      | .outOfFuel => .outOfFuel

mutual
/-- The keys `dist` read by the successive iterations of the loop of `Add`
from a node: the last one is the key the new node is stored under. -/
def AddPath (val : ImageInfo H) : bkTreeNode H → List Int
  | .mk img cs => DistanceFrom hd img val :: AddPathChildren val (DistanceFrom hd img val) cs
/-- The keys read after the read of `dist` in a children map. -/
def AddPathChildren (val : ImageInfo H) (dist : Int) : List (Int × bkTreeNode H) → List Int
  | [] => []
  | (k, c) :: rest => if k = dist then AddPath val c else AddPathChildren val dist rest
end

mutual
/-- Depth of a subtree: the number of edges of its longest downward path. -/
def bkTreeNode.depth : bkTreeNode H → Nat
  | .mk _ cs => depthChildren cs
/-- One more than the largest depth of the children, 0 without children. -/
def depthChildren : List (Int × bkTreeNode H) → Nat
  | [] => 0
  | (_, c) :: rest => max (c.depth + 1) (depthChildren rest)
end

/-- The node at a position, given as the path of distance keys from a node. -/
def nodeAt : List Int → bkTreeNode H → Option (bkTreeNode H)
  | [], t => some t
  | k :: path, t =>
    match getChild k t.Children with
    | none => none
    | some c => nodeAt path c

/-- The image stored at a position of a tree. -/
def BKTree.itemAt (tree : BKTree H) (path : List Int) : Option (ImageInfo H) :=
  match tree.Root with
  | none => none
  | some root => (nodeAt path root).map bkTreeNode.Image

/-- The children map at a position of a tree, as its keys in order. -/
def BKTree.keysAt (tree : BKTree H) (path : List Int) : Option (List Int) :=
  match tree.Root with
  | none => none
  | some root => (nodeAt path root).map (fun n => n.Children.map Prod.fst)

end Descent

/-! ## The worklist loops as standard drains -/

section Drain

variable {H : Type} (hd : H → H → Int)

/-- The loop of `Search` written as a standard drain: the test for an empty
worklist comes before a candidate is taken. -/
def SearchDrain (val : ImageInfo H) (radius : Int) :
    Nat → List (bkTreeNode H) → List (ImageInfo H) → Run (List (ImageInfo H))
  | 0, _, _ => .outOfFuel
  | _ + 1, [], results => .done results
  | fuel + 1, cand :: candidates, results =>
    let dist := DistanceFrom hd cand.Image val
    let results :=
      if dist ≤ radius ∧ cand.Image.Name ≠ val.Name then results ++ [cand.Image] else results
    let low := wrapInt (dist - radius)
    let high := wrapInt (dist + radius)
    SearchDrain val radius fuel (candidates ++ inWindow low high cand.Children) results

/-- The loop of `SearchByName` written as a standard drain. -/
def SearchByNameDrain (name : String) :
    Nat → List (bkTreeNode H) → Run (Option (ImageInfo H))
  | 0, _ => .outOfFuel
  | _ + 1, [] => .done none
  | fuel + 1, cand :: candidates =>
    if cand.Image.Name = name then .done (some cand.Image)
    else SearchByNameDrain name fuel (candidates ++ cand.Children.map Prod.snd)

/-- The loop of `SearchSimilars` written as a standard drain. -/
def SearchSimilarsDrain (tree : BKTree H) (radius : Int) :
    Nat → List (bkTreeNode H) → List (String × List String) →
      Run (List (String × List String))
  | 0, _, _ => .outOfFuel
  | _ + 1, [], results => .done results
  | fuel + 1, cand :: candidates, results =>
    match tree.Search hd cand.Image radius with
    | .done found =>
      SearchSimilarsDrain tree radius fuel (candidates ++ cand.Children.map Prod.snd)
        (found.foldl (recordMatch cand.Image.Name) results)
    | .fault => .fault
    | .outOfFuel => .outOfFuel

end Drain

/-! ## The nodes Search reaches with the exact window -/

section Reach

variable {H : Type} (hd : H → H → Int)

mutual
/-- The nodes reachable from a node along edges whose key `k` satisfies
`distance(p.item, q) - r ≤ k ≤ distance(p.item, q) + r` at the parent `p`, the
bounds being exact integers. -/
def bkTreeNode.reachable (q : ImageInfo H) (r : Int) : bkTreeNode H → List (bkTreeNode H)
  | .mk img cs =>
    .mk img cs ::
      reachableChildren q r (DistanceFrom hd img q - r) (DistanceFrom hd img q + r) cs
/-- The nodes reachable through the children whose key lies in `[low, high]`. -/
def reachableChildren (q : ImageInfo H) (r : Int) (low high : Int) :
    List (Int × bkTreeNode H) → List (bkTreeNode H)
  | [] => []
  | (k, c) :: rest =>
    (if low ≤ k ∧ k ≤ high then c.reachable q r else []) ++ reachableChildren q r low high rest
end

/-- The images of the reachable nodes of a tree that are within the radius of
the query and carry another name, one per node. -/
def BKTree.reachableMatches (tree : BKTree H) (q : ImageInfo H) (r : Int) :
    List (ImageInfo H) :=
  match tree.Root with
  | none => []
  | some root =>
    ((root.reachable hd q r).filter
      (fun n => decide (DistanceFrom hd n.Image q ≤ r ∧ n.Image.Name ≠ q.Name))).map
      bkTreeNode.Image

end Reach

/-! ## The fold of SearchSimilars on names -/

/-- The body of the loop over the matches of one node, on the name of the match. -/
def recordName (candName : String) (results : List (String × List String))
    (b : String) : List (String × List String) :=
  if hasKey b results then results
  else setList candName (getList candName results ++ [b]) results

/-- The loop over the matches of one node, given as its name and the names of
its matches. -/
def similarsStep (results : List (String × List String))
    (entry : String × List String) : List (String × List String) :=
  entry.2.foldl (recordName entry.1) results

/-- A visited node as the fold of `SearchSimilars` sees it: its name and the
names of the images `Search` returns for it, in order. -/
def similarsEntry {H : Type} (hd : H → H → Int) (tree : BKTree H) (radius : Int)
    (n : bkTreeNode H) : String × List String :=
  (n.Image.Name, (searchResults hd tree n.Image radius).map ImageInfo.Name)

/-! ## Structure of trees -/

section Structure

variable {H : Type}

mutual
/-- Induction over a subtree and its children map together. -/
theorem bkTreeNode.induct {P : bkTreeNode H → Prop} {Q : List (Int × bkTreeNode H) → Prop}
    (hmk : ∀ img cs, Q cs → P (.mk img cs)) (hnil : Q [])
    (hcons : ∀ k c rest, P c → Q rest → Q ((k, c) :: rest)) : ∀ t, P t
  | .mk img cs => hmk img cs (children_induct hmk hnil hcons cs)
/-- Induction over a children map and the subtrees stored in it. -/
theorem children_induct {P : bkTreeNode H → Prop} {Q : List (Int × bkTreeNode H) → Prop}
    (hmk : ∀ img cs, Q cs → P (.mk img cs)) (hnil : Q [])
    (hcons : ∀ k c rest, P c → Q rest → Q ((k, c) :: rest)) : ∀ cs, Q cs
  | [] => hnil
  | (k, c) :: rest =>
    hcons k c rest (bkTreeNode.induct hmk hnil hcons c) (children_induct hmk hnil hcons rest)
end

@[simp] theorem nodes_mk (img : ImageInfo H) (cs : List (Int × bkTreeNode H)) :
    (bkTreeNode.mk img cs).nodes = .mk img cs :: nodesChildren cs := by
  rw [bkTreeNode.nodes]

@[simp] theorem nodesChildren_nil : nodesChildren ([] : List (Int × bkTreeNode H)) = [] := by
  rw [nodesChildren]

@[simp] theorem nodesChildren_cons (k : Int) (c : bkTreeNode H)
    (rest : List (Int × bkTreeNode H)) :
    nodesChildren ((k, c) :: rest) = c.nodes ++ nodesChildren rest := by
  rw [nodesChildren]

@[simp] theorem Image_mk (img : ImageInfo H) (cs : List (Int × bkTreeNode H)) :
    (bkTreeNode.mk img cs).Image = img := rfl

@[simp] theorem Children_mk (img : ImageInfo H) (cs : List (Int × bkTreeNode H)) :
    (bkTreeNode.mk img cs).Children = cs := rfl

theorem nodes_eq (t : bkTreeNode H) : t.nodes = t :: nodesChildren t.Children := by
  cases t; simp

theorem nodesChildren_eq (cs : List (Int × bkTreeNode H)) :
    nodesChildren cs = allNodes (cs.map Prod.snd) := by
  induction cs with
  | nil => simp [allNodes]
  | cons e rest ih => obtain ⟨k, c⟩ := e; simp [allNodes, ih] at *

theorem nodesChildren_append (as bs : List (Int × bkTreeNode H)) :
    nodesChildren (as ++ bs) = nodesChildren as ++ nodesChildren bs := by
  simp [nodesChildren_eq, allNodes]

theorem mem_nodesChildren {p : bkTreeNode H} {cs : List (Int × bkTreeNode H)} :
    p ∈ nodesChildren cs ↔ ∃ e ∈ cs, p ∈ e.2.nodes := by
  simp only [nodesChildren_eq, allNodes, List.mem_flatMap, List.mem_map]
  constructor
  · rintro ⟨a, ⟨e, he, rfl⟩, hp⟩
    exact ⟨e, he, hp⟩
  · rintro ⟨e, he, hp⟩
    exact ⟨e.2, ⟨e, he, rfl⟩, hp⟩

theorem self_mem_nodes (t : bkTreeNode H) : t ∈ t.nodes := by
  rw [nodes_eq]; simp

theorem size_pos (t : bkTreeNode H) : 0 < t.size := by
  rw [bkTreeNode.size, nodes_eq]; simp

end Structure

/-! ## Add: how the children map and the nodes change -/

section AddFacts

variable {H : Type} (hd : H → H → Int)

@[simp] theorem AddLoop_mk (val img : ImageInfo H) (cs : List (Int × bkTreeNode H)) :
    AddLoop hd val (.mk img cs) = .mk img (AddChildren hd val (DistanceFrom hd img val) cs) := by
  rw [AddLoop]

@[simp] theorem AddChildren_nil (val : ImageInfo H) (d : Int) :
    AddChildren hd val d [] = [(d, newbkTreeNode val)] := by
  rw [AddChildren]

theorem AddChildren_cons (val : ImageInfo H) (d k : Int) (c : bkTreeNode H)
    (rest : List (Int × bkTreeNode H)) :
    AddChildren hd val d ((k, c) :: rest) =
      if k = d then (k, AddLoop hd val c) :: rest else (k, c) :: AddChildren hd val d rest := by
  rw [AddChildren]

theorem AddLoop_Image (val : ImageInfo H) (t : bkTreeNode H) :
    (AddLoop hd val t).Image = t.Image := by
  cases t; simp

theorem getChild_eq_none {d : Int} {cs : List (Int × bkTreeNode H)} :
    getChild d cs = none ↔ d ∉ cs.map Prod.fst := by
  induction cs with
  | nil => simp [getChild]
  | cons e rest ih =>
    obtain ⟨k, c⟩ := e
    by_cases hk : k = d
    · simp [getChild, hk]
    · simp [getChild, hk, ih, Ne.symm hk]

theorem getChild_mem {d : Int} {t : bkTreeNode H} {cs : List (Int × bkTreeNode H)}
    (h : getChild d cs = some t) : (d, t) ∈ cs := by
  induction cs with
  | nil => simp [getChild] at h
  | cons e rest ih =>
    obtain ⟨k, c⟩ := e
    by_cases hk : k = d
    · simp [getChild, hk] at h
      simp [hk, h]
    · simp [getChild, hk] at h
      exact List.mem_cons_of_mem _ (ih h)

/-- With no entry under `d` the new node is appended under `d`. -/
theorem AddChildren_absent (val : ImageInfo H) (d : Int) (cs : List (Int × bkTreeNode H))
    (h : getChild d cs = none) :
    AddChildren hd val d cs = cs ++ [(d, newbkTreeNode val)] := by
  induction cs with
  | nil => simp
  | cons e rest ih =>
    obtain ⟨k, c⟩ := e
    by_cases hk : k = d
    · simp [getChild, hk] at h
    · simp [getChild, hk] at h
      simp [AddChildren_cons, hk, ih h]

/-- With an entry under `d` the keys of the map stay as they are. -/
theorem AddChildren_present_keys (val : ImageInfo H) (d : Int) (t : bkTreeNode H)
    (cs : List (Int × bkTreeNode H)) (h : getChild d cs = some t) :
    (AddChildren hd val d cs).map Prod.fst = cs.map Prod.fst := by
  induction cs with
  | nil => simp [getChild] at h
  | cons e rest ih =>
    obtain ⟨k, c⟩ := e
    by_cases hk : k = d
    · simp [AddChildren_cons, hk]
    · simp [getChild, hk] at h
      simp [AddChildren_cons, hk, ih h]

/-- Reading the children map after the descent step. -/
theorem getChild_AddChildren (val : ImageInfo H) (d k : Int) (cs : List (Int × bkTreeNode H)) :
    getChild k (AddChildren hd val d cs) =
      if k = d then
        (match getChild d cs with
          | none => some (newbkTreeNode val)
          | some t => some (AddLoop hd val t))
      else getChild k cs := by
  induction cs with
  | nil =>
    by_cases hk : k = d
    · simp [getChild, hk]
    · simp [getChild, hk, Ne.symm hk]
  | cons e rest ih =>
    obtain ⟨k', c⟩ := e
    by_cases hk' : k' = d
    · subst hk'
      by_cases hk : k = k'
      · simp [AddChildren_cons, getChild, hk]
      · simp [AddChildren_cons, getChild, hk, Ne.symm hk]
    · by_cases hk : k = d
      · subst hk
        simp [AddChildren_cons, getChild, hk', ih]
      · by_cases hkk : k' = k
        · subst hkk
          simp [AddChildren_cons, getChild, hk']
        · simp [AddChildren_cons, getChild, hk', hkk, ih, hk]

/-- An entry of the map after the descent step is an old entry, the entry under
`d` with the loop continued below it, or the new node under `d`. -/
theorem mem_AddChildren {val : ImageInfo H} {d : Int} {cs : List (Int × bkTreeNode H)}
    {e : Int × bkTreeNode H} (h : e ∈ AddChildren hd val d cs) :
    e ∈ cs ∨ (∃ c, (d, c) ∈ cs ∧ e = (d, AddLoop hd val c)) ∨ e = (d, newbkTreeNode val) := by
  induction cs with
  | nil => simp at h; exact Or.inr (Or.inr h)
  | cons e' rest ih =>
    obtain ⟨k, c⟩ := e'
    rw [AddChildren_cons] at h
    by_cases hk : k = d
    · subst hk
      simp only [if_true, List.mem_cons] at h
      rcases h with h | h
      · exact Or.inr (Or.inl ⟨c, List.mem_cons_self _ _, h⟩)
      · exact Or.inl (List.mem_cons_of_mem _ h)
    · simp only [hk, if_false, List.mem_cons] at h
      rcases h with h | h
      · exact Or.inl (h ▸ List.mem_cons_self _ _)
      · rcases ih h with h1 | ⟨c', hc', he⟩ | h3
        · exact Or.inl (List.mem_cons_of_mem _ h1)
        · exact Or.inr (Or.inl ⟨c', List.mem_cons_of_mem _ hc', he⟩)
        · exact Or.inr (Or.inr h3)

/-- The keys of a map stay distinct through the descent step. -/
theorem AddChildren_nodup_keys (val : ImageInfo H) (d : Int) (cs : List (Int × bkTreeNode H))
    (h : (cs.map Prod.fst).Nodup) : ((AddChildren hd val d cs).map Prod.fst).Nodup := by
  cases hg : getChild d cs with
  | none =>
    rw [AddChildren_absent hd val d cs hg]
    have hd' := getChild_eq_none.1 hg
    rw [List.map_append, List.nodup_append]
    refine ⟨h, by simp, ?_⟩
    intro a ha hb
    simp at hb
    subst hb
    exact hd' ha
  | some t => rw [AddChildren_present_keys hd val d t cs hg]; exact h

/-- A property of single nodes that the new leaf has and that survives the
descent step at a node holds at every node after `AddLoop` when it held at
every node before. -/
theorem AddLoop_forall_nodes (val : ImageInfo H) (φ : bkTreeNode H → Prop)
    (hnew : φ (newbkTreeNode val))
    (hstep : ∀ img cs, φ (.mk img cs) →
      φ (.mk img (AddChildren hd val (DistanceFrom hd img val) cs))) :
    ∀ t : bkTreeNode H, (∀ p ∈ t.nodes, φ p) → ∀ p ∈ (AddLoop hd val t).nodes, φ p := by
  refine @bkTreeNode.induct H
    (fun t => (∀ p ∈ t.nodes, φ p) → ∀ p ∈ (AddLoop hd val t).nodes, φ p)
    (fun cs => ∀ d, (∀ p ∈ nodesChildren cs, φ p) →
      ∀ p ∈ nodesChildren (AddChildren hd val d cs), φ p) ?_ ?_ ?_
  · intro img cs ih h p hp
    simp only [AddLoop_mk, nodes_mk, List.mem_cons] at hp
    rcases hp with rfl | hp
    · exact hstep img cs (h _ (by simp))
    · exact ih _ (fun q hq => h q (by simp [hq])) p hp
  · intro d _ p hp
    simp [newbkTreeNode] at hp
    subst hp
    exact hnew
  · intro k c rest ihc ihrest d h p hp
    rw [AddChildren_cons] at hp
    by_cases hk : k = d
    · simp only [hk, if_true, nodesChildren_cons, List.mem_append] at hp
      rcases hp with hp | hp
      · exact ihc (fun q hq => h q (by simp [hq])) p hp
      · exact h p (by simp [hp])
    · simp only [hk, if_false, nodesChildren_cons, List.mem_append] at hp
      rcases hp with hp | hp
      · exact h p (by simp [hp])
      · exact ihrest d (fun q hq => h q (by simp [hq])) p hp

/-- The images after the descent are the images before and the new one. -/
theorem AddLoop_items_perm (val : ImageInfo H) :
    ∀ t : bkTreeNode H, List.Perm (AddLoop hd val t).items (val :: t.items) := by
  refine @bkTreeNode.induct H
    (fun t => List.Perm (AddLoop hd val t).items (val :: t.items))
    (fun cs => ∀ d, List.Perm ((nodesChildren (AddChildren hd val d cs)).map bkTreeNode.Image)
      (val :: (nodesChildren cs).map bkTreeNode.Image)) ?_ ?_ ?_
  · intro img cs ih
    simp only [bkTreeNode.items, AddLoop_mk, nodes_mk, List.map_cons, Image_mk]
    exact ((ih _).cons img).trans (List.Perm.swap _ _ _)
  · intro d
    simp [newbkTreeNode]
  · intro k c rest ihc ihrest d
    rw [AddChildren_cons]
    by_cases hk : k = d
    · simp only [hk, if_true, nodesChildren_cons, List.map_append]
      exact List.Perm.append_right _ ihc
    · simp only [hk, if_false, nodesChildren_cons, List.map_append]
      exact ((ihrest d).append_left _).trans List.perm_middle

theorem AddLoop_size (val : ImageInfo H) (t : bkTreeNode H) :
    (AddLoop hd val t).size = t.size + 1 := by
  have h := (AddLoop_items_perm hd val t).length_eq
  simpa [bkTreeNode.items, bkTreeNode.size] using h

theorem AddAll_snoc (xs : List (ImageInfo H)) (x : ImageInfo H) :
    AddAll hd (xs ++ [x]) = (AddAll hd xs).Add hd x := by
  simp [AddAll, List.foldl_append]

/-- A property of single nodes as in `AddLoop_forall_nodes`, for every image that
can be added, holds at every node of a tree built by `Add` from the empty tree. -/
theorem AddAll_forall_nodes (φ : bkTreeNode H → Prop)
    (hnew : ∀ val, φ (newbkTreeNode val))
    (hstep : ∀ val img cs, φ (.mk img cs) →
      φ (.mk img (AddChildren hd val (DistanceFrom hd img val) cs)))
    (xs : List (ImageInfo H)) : ∀ p ∈ (AddAll hd xs).nodes, φ p := by
  induction xs using List.reverseRecOn with
  | nil => simp [AddAll, BKTree.nodes]
  | append_singleton xs x ih =>
    rw [AddAll_snoc]
    cases hroot : (AddAll hd xs).Root with
    | none =>
      intro p hp
      simp [BKTree.Add, hroot, BKTree.nodes, newbkTreeNode] at hp
      subst hp
      exact hnew x
    | some root =>
      simp only [BKTree.Add, hroot, BKTree.nodes]
      simp only [BKTree.nodes, hroot] at ih
      exact AddLoop_forall_nodes hd x φ (hnew x) (hstep x) root ih

/-- The images stored in a tree built by `Add` are the images added. -/
theorem AddAll_items_perm (xs : List (ImageInfo H)) :
    List.Perm (AddAll hd xs).items xs := by
  induction xs using List.reverseRecOn with
  | nil => simp [AddAll, BKTree.items, BKTree.nodes]
  | append_singleton xs x ih =>
    rw [AddAll_snoc]
    cases hroot : (AddAll hd xs).Root with
    | none =>
      simp only [BKTree.items, BKTree.nodes, hroot, List.map_nil] at ih
      have hx : xs = [] := List.Perm.eq_nil (ih.symm)
      subst hx
      simp [BKTree.Add, hroot, BKTree.items, BKTree.nodes, newbkTreeNode]
    | some root =>
      simp only [BKTree.items, BKTree.nodes, hroot] at ih
      simp only [BKTree.Add, hroot, BKTree.items, BKTree.nodes]
      have h1 := AddLoop_items_perm hd x root
      simp only [bkTreeNode.items] at h1
      exact h1.trans ((List.perm_append_singleton x _).symm.trans
        (List.Perm.append_right [x] ih))

end AddFacts

/-! ## Claims about Add -/

section AddClaims

variable {H : Type} (hd : H → H → Int)

/-- C3. In the tree built from the empty tree by adding any finite sequence of
images, every non-root node is stored in its parent's children under the key
`distance(parent image, node image)`. -/
theorem insertion_placement (xs : List (ImageInfo H)) :
    (AddAll hd xs).PlacedByDistance hd := by
  refine AddAll_forall_nodes hd
    (fun p => ∀ e ∈ p.Children, e.1 = DistanceFrom hd p.Image e.2.Image) ?_ ?_ xs
  · intro val e he
    simp [newbkTreeNode] at he
  · intro val img cs h e he
    simp only [Children_mk, Image_mk] at h he ⊢
    rcases mem_AddChildren hd he with h1 | ⟨c, hc, rfl⟩ | rfl
    · exact h e h1
    · simpa [AddLoop_Image] using h _ hc
    · simp [newbkTreeNode]

/-- C4. In every tree built by `Add` from the empty tree no node has two
children under the same key.  At a node whose map has no entry under
`d = distance(node image, val)` the descent appends the new leaf under `d`; at
a node that has one, the keys stay the same, every child stays under its key
(the one under `d` with the descent continued below it, the others unchanged),
and the descent never changes the image of the node it continues from. -/
theorem one_child_per_distance (xs : List (ImageInfo H)) (val img : ImageInfo H)
    (cs : List (Int × bkTreeNode H)) :
    (AddAll hd xs).KeysDistinct ∧
    (getChild (DistanceFrom hd img val) cs = none →
      AddLoop hd val (.mk img cs) =
        .mk img (cs ++ [(DistanceFrom hd img val, newbkTreeNode val)])) ∧
    (∀ t, getChild (DistanceFrom hd img val) cs = some t →
      (AddLoop hd val (.mk img cs)).Children.map Prod.fst = cs.map Prod.fst) ∧
    (∀ k c, getChild k cs = some c →
      getChild k (AddLoop hd val (.mk img cs)).Children =
        some (if k = DistanceFrom hd img val then AddLoop hd val c else c)) ∧
    (∀ c, (AddLoop hd val c).Image = c.Image) := by
  refine ⟨?_, ?_, ?_, ?_, AddLoop_Image hd val⟩
  · refine AddAll_forall_nodes hd (fun p => (p.Children.map Prod.fst).Nodup) ?_ ?_ xs
    · intro v
      simp [newbkTreeNode]
    · intro v i l h
      exact AddChildren_nodup_keys hd v _ l h
  · intro h
    rw [AddLoop_mk, AddChildren_absent hd val _ cs h]
  · intro t h
    rw [AddLoop_mk, Children_mk, AddChildren_present_keys hd val _ t cs h]
  · intro k c h
    rw [AddLoop_mk, Children_mk, getChild_AddChildren]
    by_cases hk : k = DistanceFrom hd img val
    · subst hk
      simp [h]
    · simp [hk, h]

/-- C5. `Add` creates exactly one node: the number of nodes grows by one, the
multiset of stored images is the one before plus the image added, and on the
empty tree the new node is the root and has no children. -/
theorem add_creates_one_node (tree : BKTree H) (x : ImageInfo H) :
    (tree.Add hd x).size = tree.size + 1 ∧
    ((tree.Add hd x).items : Multiset (ImageInfo H)) = x ::ₘ (tree.items : Multiset (ImageInfo H)) ∧
    (tree.Root = none → (tree.Add hd x).Root = some (.mk x [])) := by
  cases hroot : tree.Root with
  | none =>
    simp [BKTree.Add, hroot, BKTree.size, BKTree.items, BKTree.nodes, newbkTreeNode]
  | some root =>
    have h1 := AddLoop_items_perm hd x root
    have h2 := AddLoop_size hd x root
    simp only [bkTreeNode.items, bkTreeNode.size] at h1 h2
    refine ⟨?_, ?_, by simp⟩
    · simp [BKTree.Add, hroot, BKTree.size, BKTree.nodes, h2]
    · simp only [BKTree.Add, hroot, BKTree.items, BKTree.nodes]
      rw [Multiset.cons_coe]
      exact Multiset.coe_eq_coe.2 h1

end AddClaims

/-! ## Search: the loop and the pruned traversal -/

section SearchFacts

variable {H : Type} (hd : H → H → Int)

/-- Induction over a subtree from all the subtrees stored in its children map. -/
theorem bkTreeNode.induct_children {P : bkTreeNode H → Prop}
    (h : ∀ img cs, (∀ e ∈ cs, P e.2) → P (.mk img cs)) : ∀ t, P t := by
  refine @bkTreeNode.induct H P (fun cs => ∀ e ∈ cs, P e.2) h ?_ ?_
  · intro e he
    simp at he
  · intro k c rest hc hrest e he
    simp only [List.mem_cons] at he
    rcases he with rfl | he
    · exact hc
    · exact hrest e he

theorem wrapInt_eq {x : Int} (h1 : -2 ^ 63 ≤ x) (h2 : x < 2 ^ 63) : wrapInt x = x := by
  unfold wrapInt
  rw [Int.emod_eq_of_lt (by omega) (by omega)]
  ring

@[simp] theorem allNodes_nil : allNodes ([] : List (bkTreeNode H)) = [] := rfl

@[simp] theorem allNodes_cons (c : bkTreeNode H) (rest : List (bkTreeNode H)) :
    allNodes (c :: rest) = c :: (nodesChildren c.Children ++ allNodes rest) := by
  simp [allNodes, nodes_eq c]

@[simp] theorem allNodes_append (as bs : List (bkTreeNode H)) :
    allNodes (as ++ bs) = allNodes as ++ allNodes bs := by
  simp [allNodes]

theorem inWindow_sublist (low high : Int) (cs : List (Int × bkTreeNode H)) :
    List.Sublist (inWindow low high cs) (cs.map Prod.snd) :=
  (List.filter_sublist cs).map Prod.snd

theorem allNodes_length_mono {as bs : List (bkTreeNode H)} (h : List.Sublist as bs) :
    (allNodes as).length ≤ (allNodes bs).length := by
  induction h with
  | slnil => simp
  | cons a _ ih => simp only [allNodes_cons, List.length_cons, List.length_append]; omega
  | cons₂ a _ ih => simp only [allNodes_cons, List.length_cons, List.length_append]; omega

theorem inWindow_length_le (low high : Int) (cs : List (Int × bkTreeNode H)) :
    (allNodes (inWindow low high cs)).length ≤ (nodesChildren cs).length := by
  rw [nodesChildren_eq]
  exact allNodes_length_mono (inWindow_sublist low high cs)

theorem prunedMatches_mk (val : ImageInfo H) (radius : Int) (img : ImageInfo H)
    (cs : List (Int × bkTreeNode H)) :
    (bkTreeNode.mk img cs).prunedMatches hd val radius =
      ownMatch hd val radius img ++
        (inWindow (wrapInt (DistanceFrom hd img val - radius))
          (wrapInt (DistanceFrom hd img val + radius)) cs).flatMap
          (bkTreeNode.prunedMatches hd val radius) := by
  rw [bkTreeNode.prunedMatches]
  congr 1
  generalize wrapInt (DistanceFrom hd img val - radius) = low
  generalize wrapInt (DistanceFrom hd img val + radius) = high
  induction cs with
  | nil => simp [prunedMatchesChildren, inWindow]
  | cons e rest ih =>
    obtain ⟨k, c⟩ := e
    rw [prunedMatchesChildren, ih]
    by_cases hk : k ≥ low ∧ k ≤ high
    · simp [inWindow, List.filter_cons, hk]
    · simp [inWindow, List.filter_cons, hk]

theorem prunedMatches_eq (val : ImageInfo H) (radius : Int) (t : bkTreeNode H) :
    t.prunedMatches hd val radius =
      ownMatch hd val radius t.Image ++
        (inWindow (wrapInt (DistanceFrom hd t.Image val - radius))
          (wrapInt (DistanceFrom hd t.Image val + radius)) t.Children).flatMap
          (bkTreeNode.prunedMatches hd val radius) := by
  cases t
  exact prunedMatches_mk hd val radius _ _

theorem SearchLoop_cons (val : ImageInfo H) (radius : Int) (fuel : Nat) (cand : bkTreeNode H)
    (rest : List (bkTreeNode H)) (res : List (ImageInfo H)) :
    SearchLoop hd val radius (fuel + 1) (cand :: rest) res =
      if (rest ++ inWindow (wrapInt (DistanceFrom hd cand.Image val - radius))
          (wrapInt (DistanceFrom hd cand.Image val + radius)) cand.Children).isEmpty
      then .done (res ++ ownMatch hd val radius cand.Image)
      else SearchLoop hd val radius fuel
        (rest ++ inWindow (wrapInt (DistanceFrom hd cand.Image val - radius))
          (wrapInt (DistanceFrom hd cand.Image val + radius)) cand.Children)
        (res ++ ownMatch hd val radius cand.Image) := by
  rw [SearchLoop]
  by_cases h : DistanceFrom hd cand.Image val ≤ radius ∧ cand.Image.Name ≠ val.Name
  · simp only [ownMatch, if_pos h]
  · simp only [ownMatch, if_neg h, List.append_nil]

/-- With at least as much fuel as there are nodes below the worklist, the loop
of `Search` ends normally and appends to `results` the pruned matches of the
candidates, in some order. -/
theorem SearchLoop_spec (val : ImageInfo H) (radius : Int) :
    ∀ (fuel : Nat) (cands : List (bkTreeNode H)) (res : List (ImageInfo H)),
      cands ≠ [] → (allNodes cands).length ≤ fuel →
      ∃ out, SearchLoop hd val radius fuel cands res = .done (res ++ out) ∧
        List.Perm out (cands.flatMap (bkTreeNode.prunedMatches hd val radius)) := by
  intro fuel
  induction fuel with
  | zero =>
    intro cands res hne hlen
    cases cands with
    | nil => exact absurd rfl hne
    | cons c rest => simp at hlen
  | succ fuel ih =>
    intro cands res hne hlen
    cases cands with
    | nil => exact absurd rfl hne
    | cons c rest =>
      rw [SearchLoop_cons]
      generalize hlow : wrapInt (DistanceFrom hd c.Image val - radius) = low
      generalize hhigh : wrapInt (DistanceFrom hd c.Image val + radius) = high
      have hc := prunedMatches_eq hd val radius c
      rw [hlow, hhigh] at hc
      by_cases hemp : (rest ++ inWindow low high c.Children).isEmpty
      · rw [if_pos hemp]
        have hnil : rest ++ inWindow low high c.Children = [] := by simpa using hemp
        obtain ⟨hrest, hwin⟩ := List.append_eq_nil.1 hnil
        refine ⟨ownMatch hd val radius c.Image, rfl, ?_⟩
        simp [hc, hrest, hwin]
      · rw [if_neg hemp]
        have hne' : rest ++ inWindow low high c.Children ≠ [] := by simpa using hemp
        have hlen' : (allNodes (rest ++ inWindow low high c.Children)).length ≤ fuel := by
          have := inWindow_length_le low high c.Children
          simp only [allNodes_cons, List.length_cons, List.length_append] at hlen
          simp only [allNodes_append, List.length_append]
          omega
        obtain ⟨out, hout, hperm⟩ := ih _ (res ++ ownMatch hd val radius c.Image) hne' hlen'
        refine ⟨ownMatch hd val radius c.Image ++ out, by simp [hout], ?_⟩
        simp only [List.flatMap_cons, List.flatMap_append, hc] at hperm ⊢
        rw [List.append_assoc]
        exact List.Perm.append_left _ (hperm.trans List.perm_append_comm)

/-- The pruned matches of a tree. -/
theorem Search_spec (tree : BKTree H) (val : ImageInfo H) (radius : Int) :
    ∃ res, tree.Search hd val radius = .done res ∧
      List.Perm res (match tree.Root with
        | none => []
        | some root => root.prunedMatches hd val radius) := by
  cases hroot : tree.Root with
  | none => exact ⟨[], by simp [BKTree.Search, hroot], List.Perm.refl _⟩
  | some root =>
    have hlen : (allNodes [root]).length ≤ root.size := by
      simp [bkTreeNode.size, nodes_eq root]
    obtain ⟨out, hout, hperm⟩ := SearchLoop_spec hd val radius root.size [root] [] (by simp) hlen
    exact ⟨out, by simpa [BKTree.Search, hroot] using hout, by simpa using hperm⟩

/-- A pruned match is a stored image within the radius whose name differs from
the query's. -/
theorem prunedMatches_sound (val : ImageInfo H) (radius : Int) :
    ∀ (t : bkTreeNode H), ∀ i ∈ t.prunedMatches hd val radius,
      i ∈ t.items ∧ DistanceFrom hd i val ≤ radius ∧ i.Name ≠ val.Name := by
  refine bkTreeNode.induct_children ?_
  intro img cs ih i hi
  rw [prunedMatches_mk, List.mem_append] at hi
  rcases hi with hi | hi
  · unfold ownMatch at hi
    split at hi
    · rename_i hcond
      simp only [List.mem_singleton] at hi
      subst hi
      exact ⟨by simp [bkTreeNode.items], hcond⟩
    · simp at hi
  · obtain ⟨c, hc, hic⟩ := List.mem_flatMap.1 hi
    have hsub := (inWindow_sublist _ _ cs).subset hc
    obtain ⟨e, he, rfl⟩ := List.mem_map.1 hsub
    obtain ⟨h1, h2⟩ := ih e he i hic
    refine ⟨?_, h2⟩
    simp only [bkTreeNode.items, nodes_mk, List.map_cons, List.mem_cons, List.mem_map] at h1 ⊢
    obtain ⟨p, hp, rfl⟩ := h1
    exact Or.inr ⟨p, mem_nodesChildren.2 ⟨e, he, hp⟩, rfl⟩

end SearchFacts

/-! ## Search on trees built by Add -/

section SearchCorrect

variable {H : Type} (hd : H → H → Int)

theorem items_mk (img : ImageInfo H) (cs : List (Int × bkTreeNode H)) :
    (bkTreeNode.mk img cs).items = img :: (nodesChildren cs).map bkTreeNode.Image := by
  simp [bkTreeNode.items]

theorem mem_items_child {img : ImageInfo H} {cs : List (Int × bkTreeNode H)}
    {e : Int × bkTreeNode H} (he : e ∈ cs) {x : ImageInfo H} (hx : x ∈ e.2.items) :
    x ∈ (bkTreeNode.mk img cs).items := by
  rw [items_mk]
  obtain ⟨p, hp, rfl⟩ := List.mem_map.1 hx
  exact List.mem_cons_of_mem _ (List.mem_map.2 ⟨p, mem_nodesChildren.2 ⟨e, he, hp⟩, rfl⟩)

theorem mem_inWindow {low high : Int} {cs : List (Int × bkTreeNode H)}
    {e : Int × bkTreeNode H} (he : e ∈ cs) (h1 : low ≤ e.1) (h2 : e.1 ≤ high) :
    e.2 ∈ inWindow low high cs := by
  unfold inWindow
  exact List.mem_map.2 ⟨e, List.mem_filter.2 ⟨he, by simp [h1, h2]⟩, rfl⟩

/-- In a tree built by `Add` every image below the child under key `k` of a
node is at distance `k` from the node's image. -/
theorem AddAll_subtreeDistances (xs : List (ImageInfo H)) :
    (AddAll hd xs).SubtreeDistances hd := by
  refine AddAll_forall_nodes hd
    (fun p => ∀ e ∈ p.Children, ∀ x ∈ e.2.items, DistanceFrom hd p.Image x = e.1) ?_ ?_ xs
  · intro val e he
    simp [newbkTreeNode] at he
  · intro val img cs h e he x hx
    simp only [Children_mk, Image_mk] at h he ⊢
    rcases mem_AddChildren hd he with h1 | ⟨c, hc, rfl⟩ | rfl
    · exact h e h1 x hx
    · have hx' := (AddLoop_items_perm hd val c).subset hx
      simp only [List.mem_cons] at hx'
      rcases hx' with rfl | hx'
      · rfl
      · exact h _ hc x hx'
    · simp [newbkTreeNode, bkTreeNode.items] at hx
      subst hx
      rfl

/-- With a metric, subtree distances as `Add` leaves them and no overflow of
`dist+radius` at a stored image, every stored image within the radius whose
name differs from the query's is a pruned match. -/
theorem prunedMatches_complete (hm : IsMetric hd) (val : ImageInfo H) (radius : Int) :
    ∀ (t : bkTreeNode H),
      (∀ p ∈ t.nodes, ∀ e ∈ p.Children, ∀ x ∈ e.2.items, DistanceFrom hd p.Image x = e.1) →
      (∀ x ∈ t.items, DistanceFrom hd x val + radius ≤ maxInt) →
      ∀ i ∈ t.items, DistanceFrom hd i val ≤ radius → i.Name ≠ val.Name →
        i ∈ t.prunedMatches hd val radius := by
  obtain ⟨hnonneg, hsymm, htri⟩ := hm
  refine bkTreeNode.induct_children ?_
  intro img cs ih hinv hbound i hi hdist hname
  rw [prunedMatches_mk, List.mem_append]
  rw [items_mk, List.mem_cons] at hi
  rcases hi with rfl | hi
  · left
    simp [ownMatch, hdist, hname]
  · right
    obtain ⟨p, hp, rfl⟩ := List.mem_map.1 hi
    obtain ⟨e, he, hpe⟩ := mem_nodesChildren.1 hp
    have hie : p.Image ∈ e.2.items := List.mem_map.2 ⟨p, hpe, rfl⟩
    have hkey : DistanceFrom hd img p.Image = e.1 := by
      simpa using hinv (.mk img cs) (by simp) e (by simpa using he) p.Image hie
    have hrec : p.Image ∈ e.2.prunedMatches hd val radius := by
      refine ih e he ?_ ?_ p.Image hie hdist hname
      · intro q hq
        exact hinv q (by
          rw [nodes_mk]
          exact List.mem_cons_of_mem _ (mem_nodesChildren.2 ⟨e, he, hq⟩))
      · intro x hx
        exact hbound x (mem_items_child he hx)
    have hb := hbound img (by simp [items_mk])
    have h0 : 0 ≤ DistanceFrom hd p.Image val := hnonneg _ _
    have h1 : 0 ≤ DistanceFrom hd img val := hnonneg _ _
    have h2 : DistanceFrom hd img p.Image ≤ DistanceFrom hd img val + DistanceFrom hd val p.Image :=
      htri _ _ _
    have h3 : DistanceFrom hd img val ≤ DistanceFrom hd img p.Image + DistanceFrom hd p.Image val :=
      htri _ _ _
    have h4 : DistanceFrom hd val p.Image = DistanceFrom hd p.Image val := hsymm _ _
    have hmax : maxInt = 2 ^ 63 - 1 := rfl
    have hlow : wrapInt (DistanceFrom hd img val - radius) = DistanceFrom hd img val - radius :=
      wrapInt_eq (by omega) (by omega)
    have hhigh : wrapInt (DistanceFrom hd img val + radius) = DistanceFrom hd img val + radius :=
      wrapInt_eq (by omega) (by omega)
    rw [hlow, hhigh]
    exact List.mem_flatMap.2 ⟨e.2, mem_inWindow he (by omega) (by omega), hrec⟩

/-- C1 (as amended). For a tree built by `Add` from the empty tree with a
non-negative, symmetric distance satisfying the triangle inequality, and every
query `q` and radius `r` for which `distance(i, q) + r` stays within the 64-bit
`int` range at every stored image `i`, `Search(q, r)` ends normally and returns
exactly the stored images `i` with `distance(i, q) ≤ r` and a name other than
`q`'s (as a set). -/
theorem search_correct_without_overflow (hm : IsMetric hd) (xs : List (ImageInfo H))
    (q : ImageInfo H) (r : Int) (hr : ∀ x ∈ xs, DistanceFrom hd x q + r ≤ maxInt) :
    ∃ res, (AddAll hd xs).Search hd q r = .done res ∧
      ∀ i, i ∈ res ↔ (i ∈ xs ∧ DistanceFrom hd i q ≤ r ∧ i.Name ≠ q.Name) := by
  obtain ⟨res, hres, hperm⟩ := Search_spec hd (AddAll hd xs) q r
  refine ⟨res, hres, ?_⟩
  have hitems := AddAll_items_perm hd xs
  have hinv := AddAll_subtreeDistances hd xs
  intro i
  rw [hperm.mem_iff]
  cases hroot : (AddAll hd xs).Root with
  | none =>
    simp only [BKTree.items, BKTree.nodes, hroot, List.map_nil] at hitems
    have hx : xs = [] := List.Perm.eq_nil hitems.symm
    simp [hx]
  | some root =>
    simp only [BKTree.items, BKTree.nodes, hroot] at hitems
    simp only [BKTree.SubtreeDistances, BKTree.nodes, hroot] at hinv
    constructor
    · intro hi
      obtain ⟨h1, h2⟩ := prunedMatches_sound hd q r root i hi
      exact ⟨hitems.subset h1, h2⟩
    · rintro ⟨h1, h2, h3⟩
      exact prunedMatches_complete hd hm q r root hinv
        (fun x hx => hr x (hitems.subset hx)) i (hitems.symm.subset h1) h2 h3

/-- C2. On every tree, for every query and radius, `Search` ends normally and
no image it returns has the query's name. -/
theorem search_excludes_query_name (tree : BKTree H) (q : ImageInfo H) (r : Int) :
    ∃ res, tree.Search hd q r = .done res ∧ ∀ i ∈ res, i.Name ≠ q.Name := by
  obtain ⟨res, hres, hperm⟩ := Search_spec hd tree q r
  refine ⟨res, hres, ?_⟩
  intro i hi
  have hi' := hperm.subset hi
  cases hroot : tree.Root with
  | none => simp [hroot] at hi'
  | some root =>
    simp only [hroot] at hi'
    exact (prunedMatches_sound hd q r root i hi').2.2

end SearchCorrect

/-- Witness of C1 (as amended): one-bit hashes, the tree of `A` and `B`, radius 1. -/
theorem search_correct_without_overflow_witness :
    IsMetric bitDistance ∧
    (∀ x ∈ [(⟨false, "A"⟩ : ImageInfo Bool), ⟨true, "B"⟩],
      DistanceFrom bitDistance x ⟨true, "Q"⟩ + 1 ≤ maxInt) ∧
    ∃ res, (AddAll bitDistance [⟨false, "A"⟩, ⟨true, "B"⟩]).Search bitDistance ⟨true, "Q"⟩ 1
        = .done res ∧
      ∀ i, i ∈ res ↔ (i ∈ [(⟨false, "A"⟩ : ImageInfo Bool), ⟨true, "B"⟩] ∧
        DistanceFrom bitDistance i ⟨true, "Q"⟩ ≤ 1 ∧ i.Name ≠ "Q") :=
  ⟨by unfold IsMetric; decide, by decide,
    search_correct_without_overflow bitDistance (by unfold IsMetric; decide)
      [⟨false, "A"⟩, ⟨true, "B"⟩] ⟨true, "Q"⟩ 1 (by decide)⟩

/-- Counterexample to C1 as stated: with the Hamming distance of one-bit hashes
(a metric), the tree of `A` (hash 0) and `B` (hash 1) and the query `Q` (hash 1)
at radius `2^63 - 1`, `dist+radius` wraps to a negative `high` at the root, the
child under key 1 is never visited, and `Search` returns `A` alone although `B`
is at distance 0 from `Q`. -/
theorem search_correct_counterexample :
    IsMetric bitDistance ∧
    (AddAll bitDistance [⟨false, "A"⟩, ⟨true, "B"⟩]).Search bitDistance ⟨true, "Q"⟩ maxInt
      = .done [⟨false, "A"⟩] ∧
    ¬ ∃ res, (AddAll bitDistance [⟨false, "A"⟩, ⟨true, "B"⟩]).Search bitDistance
          ⟨true, "Q"⟩ maxInt = .done res ∧
        ∀ i, i ∈ res ↔ (i ∈ [(⟨false, "A"⟩ : ImageInfo Bool), ⟨true, "B"⟩] ∧
          DistanceFrom bitDistance i ⟨true, "Q"⟩ ≤ maxInt ∧ i.Name ≠ "Q") := by
  refine ⟨by unfold IsMetric; decide, by decide, ?_⟩
  rintro ⟨res, hres, hiff⟩
  have hrun : (AddAll bitDistance [⟨false, "A"⟩, ⟨true, "B"⟩]).Search bitDistance
      ⟨true, "Q"⟩ maxInt = .done [⟨false, "A"⟩] := by decide
  rw [hrun] at hres
  cases hres
  have hB := (hiff ⟨true, "B"⟩).2 (by decide)
  exact absurd hB (by decide)

/-! ## The worklist order of SearchByName and SearchSimilars -/

section Worklist

variable {H : Type} (hd : H → H → Int)

@[simp] theorem bfsQueue_nil (fuel : Nat) : bfsQueue fuel ([] : List (bkTreeNode H)) = [] := by
  cases fuel <;> rfl

theorem bfsQueue_cons (fuel : Nat) (c : bkTreeNode H) (rest : List (bkTreeNode H)) :
    bfsQueue (fuel + 1) (c :: rest) = c :: bfsQueue fuel (rest ++ c.Children.map Prod.snd) := rfl

theorem allNodes_eq_nil {cands : List (bkTreeNode H)} (h : (allNodes cands).length ≤ 0) :
    cands = [] := by
  cases cands with
  | nil => rfl
  | cons c rest => simp at h

/-- With enough fuel the worklist order visits every node below the worklist once. -/
theorem bfsQueue_perm : ∀ (fuel : Nat) (cands : List (bkTreeNode H)),
    (allNodes cands).length ≤ fuel → List.Perm (bfsQueue fuel cands) (allNodes cands) := by
  intro fuel
  induction fuel with
  | zero =>
    intro cands h
    rw [allNodes_eq_nil h]
    simp
  | succ fuel ih =>
    intro cands h
    cases cands with
    | nil => simp
    | cons c rest =>
      rw [bfsQueue_cons, allNodes_cons]
      refine List.Perm.cons c ?_
      have hlen : (allNodes (rest ++ c.Children.map Prod.snd)).length ≤ fuel := by
        simp only [allNodes_cons, List.length_cons, List.length_append] at h
        simp only [allNodes_append, List.length_append, ← nodesChildren_eq]
        omega
      refine (ih _ hlen).trans ?_
      rw [allNodes_append, ← nodesChildren_eq]
      exact List.perm_append_comm

@[simp] theorem childrenOf_nil : childrenOf ([] : List (bkTreeNode H)) = [] := rfl

@[simp] theorem childrenOf_cons (c : bkTreeNode H) (rest : List (bkTreeNode H)) :
    childrenOf (c :: rest) = c.Children.map Prod.snd ++ childrenOf rest := by
  simp [childrenOf]

theorem allNodes_length_level (level : List (bkTreeNode H)) :
    (allNodes level).length = level.length + (allNodes (childrenOf level)).length := by
  induction level with
  | nil => simp
  | cons c rest ih =>
    simp only [allNodes_cons, childrenOf_cons, allNodes_append, List.length_cons,
      List.length_append, ← nodesChildren_eq, ih]
    omega

/-- The worklist passes through the front of the list and goes on with what
follows it and the children of the front. -/
theorem bfsQueue_append : ∀ (xs : List (bkTreeNode H)) (fuel : Nat) (ys : List (bkTreeNode H)),
    (allNodes (xs ++ ys)).length ≤ fuel →
    bfsQueue fuel (xs ++ ys) = xs ++ bfsQueue (fuel - xs.length) (ys ++ childrenOf xs) := by
  intro xs
  induction xs with
  | nil => intro fuel ys _; simp
  | cons x xs ih =>
    intro fuel ys h
    cases fuel with
    | zero => simp at h
    | succ fuel =>
      have hlen : (allNodes (xs ++ (ys ++ x.Children.map Prod.snd))).length ≤ fuel := by
        simp only [List.cons_append, allNodes_cons, allNodes_append, List.length_cons,
          List.length_append] at h
        simp only [allNodes_append, List.length_append, ← nodesChildren_eq]
        omega
      rw [List.cons_append, bfsQueue_cons, List.append_assoc, ih fuel _ hlen]
      simp [List.append_assoc]

/-- The worklist order is the breadth-first order level by level. -/
theorem bfsQueue_eq_bfsLevels : ∀ (n fuel : Nat) (level : List (bkTreeNode H)),
    (allNodes level).length ≤ n → (allNodes level).length ≤ fuel →
    bfsQueue fuel level = bfsLevels n level := by
  intro n
  induction n with
  | zero =>
    intro fuel level h _
    rw [allNodes_eq_nil h]
    simp [bfsLevels]
  | succ n ih =>
    intro fuel level hn hf
    by_cases hemp : level = []
    · subst hemp
      simp [bfsLevels]
    · have hpos : 0 < level.length := List.length_pos.2 hemp
      have hsplit := allNodes_length_level level
      have h1 := bfsQueue_append level fuel [] (by simpa using hf)
      simp only [List.append_nil, List.nil_append] at h1
      rw [h1, bfsLevels]
      simp only [List.isEmpty_iff, hemp, if_false]
      rw [ih (fuel - level.length) (childrenOf level) (by omega) (by omega)]

theorem bfsOrder_eq (root : bkTreeNode H) :
    bfsQueue root.size [root] = bfsLevels root.size [root] := by
  have h : (allNodes [root]).length ≤ root.size := by
    simp [bkTreeNode.size, nodes_eq root]
  exact bfsQueue_eq_bfsLevels root.size root.size [root] h h

/-! ### SearchByName -/

/-- With enough fuel the loop of `SearchByName` ends normally with the first
image of that name in worklist order. -/
theorem SearchByNameLoop_spec (name : String) :
    ∀ (fuel : Nat) (cands : List (bkTreeNode H)),
      cands ≠ [] → (allNodes cands).length ≤ fuel →
      SearchByNameLoop name fuel cands =
        .done (((bfsQueue fuel cands).map bkTreeNode.Image).find? (fun i => i.Name = name)) := by
  intro fuel
  induction fuel with
  | zero =>
    intro cands hne h
    exact absurd (allNodes_eq_nil h) hne
  | succ fuel ih =>
    intro cands hne h
    cases cands with
    | nil => exact absurd rfl hne
    | cons c rest =>
      rw [SearchByNameLoop, bfsQueue_cons]
      by_cases hname : c.Image.Name = name
      · simp [hname]
      · simp only [hname, if_false, List.map_cons, List.find?_cons, decide_False]
        by_cases hemp : (rest ++ c.Children.map Prod.snd).isEmpty
        · have hnil : rest ++ c.Children.map Prod.snd = [] := by simpa using hemp
          simp [hnil]
        · rw [if_neg hemp]
          have hne' : rest ++ c.Children.map Prod.snd ≠ [] := by simpa using hemp
          have hlen : (allNodes (rest ++ c.Children.map Prod.snd)).length ≤ fuel := by
            simp only [allNodes_cons, List.length_cons, List.length_append] at h
            simp only [allNodes_append, List.length_append, ← nodesChildren_eq]
            omega
          exact ih _ hne' hlen

/-- `SearchByName` on a tree: the first image of that name in breadth-first order. -/
theorem SearchByName_spec (tree : BKTree H) (name : String) :
    ∃ order, List.Perm order tree.items ∧
      tree.SearchByName name = .done (order.find? (fun i => i.Name = name)) := by
  cases hroot : tree.Root with
  | none =>
    exact ⟨[], by simp [BKTree.items, BKTree.nodes, hroot], by simp [BKTree.SearchByName, hroot]⟩
  | some root =>
    have h : (allNodes [root]).length ≤ root.size := by
      simp [bkTreeNode.size, nodes_eq root]
    refine ⟨(bfsQueue root.size [root]).map bkTreeNode.Image, ?_, ?_⟩
    · have hp := (bfsQueue_perm root.size [root] h).map bkTreeNode.Image
      simpa [BKTree.items, BKTree.nodes, hroot, allNodes] using hp
    · simpa [BKTree.SearchByName, hroot] using
        SearchByNameLoop_spec name root.size [root] (by simp) h

end Worklist

/-! ## Claims about SearchByName, the empty tree and the scenario -/

section LookupClaims

variable {H : Type} (hd : H → H → Int)

/-- C6. On every tree and for every name, `SearchByName` ends normally; it
returns an image exactly when some stored image has that name, a returned image
is a stored image of that name, and it returns not-found when no stored image
has the name, as for `"nonexistent"` on the three-node tree of `A`, `B`, `C`. -/
theorem search_by_name_finds_iff_stored (tree : BKTree H) (name : String) :
    ∃ r, tree.SearchByName name = .done r ∧
      (r.isSome ↔ ∃ i ∈ tree.items, i.Name = name) ∧
      (∀ i, r = some i → i ∈ tree.items ∧ i.Name = name) ∧
      ((∀ i ∈ tree.items, i.Name ≠ name) → r = none) ∧
      (AddAll absDiff [⟨0, "A"⟩, ⟨4, "B"⟩, ⟨5, "C"⟩]).SearchByName "nonexistent" = .done none := by
  obtain ⟨order, hperm, hrun⟩ := SearchByName_spec tree name
  refine ⟨_, hrun, ?_, ?_, ?_, by decide⟩
  · rw [List.find?_isSome]
    constructor
    · rintro ⟨i, hi, hn⟩
      exact ⟨i, hperm.subset hi, by simpa using hn⟩
    · rintro ⟨i, hi, hn⟩
      exact ⟨i, hperm.symm.subset hi, by simpa using hn⟩
  · intro i hi
    exact ⟨hperm.subset (List.mem_of_find?_eq_some hi), by simpa using List.find?_some hi⟩
  · intro hnone
    rw [List.find?_eq_none]
    intro i hi
    simpa using hnone i (hperm.subset hi)

/-- C7. On the empty tree, for every query, radius and name, `Search` returns
the empty list, `SearchByName` returns not-found and `SearchSimilars` returns
the empty (nil) mapping, each ending normally. -/
theorem empty_tree_results (q : ImageInfo H) (r : Int) (name : String) :
    (BKTree.mk none).Search hd q r = .done [] ∧
    (BKTree.mk (none : Option (bkTreeNode H))).SearchByName name = .done none ∧
    (BKTree.mk none).SearchSimilars hd r = .done [] :=
  ⟨rfl, rfl, rfl⟩

end LookupClaims

/-- C8. With the distance `|hash(a) - hash(b)|`, after adding `A` (hash 0), `B`
(hash 4) and `C` (hash 5) in that order to the empty tree, `Search(A, 4)`
returns exactly `B` and not `C`, and `Search(A, 5)` returns exactly `B` and `C`. -/
theorem scenario_search_radius_4_and_5 :
    ∃ r4 r5,
      (AddAll absDiff [⟨0, "A"⟩, ⟨4, "B"⟩, ⟨5, "C"⟩]).Search absDiff ⟨0, "A"⟩ 4 = .done r4 ∧
      (AddAll absDiff [⟨0, "A"⟩, ⟨4, "B"⟩, ⟨5, "C"⟩]).Search absDiff ⟨0, "A"⟩ 5 = .done r5 ∧
      (∀ i, i ∈ r4 ↔ i = ⟨4, "B"⟩) ∧ (⟨5, "C"⟩ : ImageInfo Int) ∉ r4 ∧
      (∀ i, i ∈ r5 ↔ (i = ⟨4, "B"⟩ ∨ i = ⟨5, "C"⟩)) := by
  refine ⟨[⟨4, "B"⟩], [⟨4, "B"⟩, ⟨5, "C"⟩], by decide, by decide, ?_, by decide, ?_⟩
  · intro i
    simp
  · intro i
    simp

/-! ## SearchSimilars -/

section Similars

variable {H : Type} (hd : H → H → Int)

theorem Search_eq_done (tree : BKTree H) (val : ImageInfo H) (radius : Int) :
    tree.Search hd val radius = .done (searchResults hd tree val radius) := by
  obtain ⟨res, hres, _⟩ := Search_spec hd tree val radius
  simp [searchResults, hres]

/-- With enough fuel the loop of `SearchSimilars` ends normally, having folded
the matches of the candidates into `results` in worklist order. -/
theorem SearchSimilarsLoop_spec (tree : BKTree H) (radius : Int) :
    ∀ (fuel : Nat) (cands : List (bkTreeNode H)) (results : List (String × List String)),
      cands ≠ [] → (allNodes cands).length ≤ fuel →
      SearchSimilarsLoop hd tree radius fuel cands results =
        .done ((bfsQueue fuel cands).foldl
          (fun m n => (searchResults hd tree n.Image radius).foldl
            (recordMatch n.Image.Name) m) results) := by
  intro fuel
  induction fuel with
  | zero =>
    intro cands results hne h
    exact absurd (allNodes_eq_nil h) hne
  | succ fuel ih =>
    intro cands results hne h
    cases cands with
    | nil => exact absurd rfl hne
    | cons c rest =>
      rw [SearchSimilarsLoop, bfsQueue_cons, Search_eq_done]
      simp only [List.foldl_cons]
      by_cases hemp : (rest ++ c.Children.map Prod.snd).isEmpty
      · have hnil : rest ++ c.Children.map Prod.snd = [] := by simpa using hemp
        simp [hnil]
      · rw [if_neg hemp]
        have hne' : rest ++ c.Children.map Prod.snd ≠ [] := by simpa using hemp
        have hlen : (allNodes (rest ++ c.Children.map Prod.snd)).length ≤ fuel := by
          simp only [allNodes_cons, List.length_cons, List.length_append] at h
          simp only [allNodes_append, List.length_append, ← nodesChildren_eq]
          omega
        exact ih _ _ hne' hlen

/-- C9. `SearchSimilars(radius)` ends normally and its mapping is the one of the
reference fold: the nodes visited in breadth-first order from an empty mapping,
and for each node `n` and each item `m` of `Search(n.item, radius)` in order,
`name(m)` appended to the list under `name(n)` when `name(m)` is not a key of
the mapping at that moment, nothing recorded otherwise. -/
theorem search_similars_refines_reference (tree : BKTree H) (radius : Int) :
    tree.SearchSimilars hd radius = .done (similarsReference hd tree radius) := by
  cases hroot : tree.Root with
  | none => simp [BKTree.SearchSimilars, similarsReference, BKTree.bfsOrder, hroot]
  | some root =>
    have h : (allNodes [root]).length ≤ root.size := by
      simp [bkTreeNode.size, nodes_eq root]
    have hloop := SearchSimilarsLoop_spec hd tree radius root.size [root] [] (by simp) h
    have hstep : (fun (m : List (String × List String)) (n : bkTreeNode H) =>
          (searchResults hd tree n.Image radius).foldl (recordMatch n.Image.Name) m) =
        (fun mapping n => (searchResults hd tree n.Image radius).foldl
          (fun mapping m =>
            if hasKey m.Name mapping = false then
              setList n.Image.Name (getList n.Image.Name mapping ++ [m.Name]) mapping
            else mapping) mapping) := by
      funext m n
      congr 1
      funext mapping ii
      unfold recordMatch
      cases hasKey ii.Name mapping <;> simp
    simp only [BKTree.SearchSimilars, similarsReference, BKTree.bfsOrder, hroot]
    rw [hloop, bfsOrder_eq, hstep]

/-- C10 (as amended). For two images `X` and `Y` with distinct names, at
distance 0 from each other and with `distance(X, X) = 0`, added in that order
to the empty tree, `SearchSimilars(0)` ends normally with the mapping that has
the single key `name(X)`, holding the list `[name(Y)]`: the pair is recorded
once, under the node visited first, and `name(Y)` is not a key. -/
theorem search_similars_two_at_distance_zero (X Y : ImageInfo H) (hname : X.Name ≠ Y.Name)
    (hXY : hd X.Hash Y.Hash = 0) (hYX : hd Y.Hash X.Hash = 0) (hXX : hd X.Hash X.Hash = 0) :
    (AddAll hd [X, Y]).SearchSimilars hd 0 = .done [(X.Name, [Y.Name])] ∧
    hasKey Y.Name [(X.Name, [Y.Name])] = false := by
  have hw : wrapInt 0 = 0 := by decide
  constructor
  · simp [AddAll, BKTree.Add, newbkTreeNode, BKTree.SearchSimilars, bkTreeNode.size,
      SearchSimilarsLoop, BKTree.Search, SearchLoop, DistanceFrom, hXY, hYX, hXX, hw, inWindow,
      AddChildren, hname, Ne.symm hname, recordMatch, hasKey, getList, setList]
  · simp [hasKey, hname]

end Similars

/-- Witness of C10 (as amended): two one-bit hashes that are equal. -/
theorem search_similars_two_at_distance_zero_witness :
    ("X" ≠ "Y" ∧ bitDistance false false = 0) ∧
    ((AddAll bitDistance [⟨false, "X"⟩, ⟨false, "Y"⟩]).SearchSimilars bitDistance 0
        = .done [("X", ["Y"])] ∧
      hasKey "Y" [("X", ["Y"])] = false) :=
  ⟨by decide, search_similars_two_at_distance_zero bitDistance ⟨false, "X"⟩ ⟨false, "Y"⟩
    (by decide) (by decide) (by decide) (by decide)⟩

/-- Counterexample to C10 as stated: for `X` and `Y` with equal one-bit hashes
and distinct names, `SearchSimilars(0)` returns the mapping with the single
entry `"X" ↦ ["Y"]`; the list under `"Y"` is empty, not `["X"]`. -/
theorem search_similars_symmetric_counterexample :
    (AddAll bitDistance [⟨false, "X"⟩, ⟨false, "Y"⟩]).SearchSimilars bitDistance 0
      = .done [("X", ["Y"])] ∧
    ¬ ∃ m, (AddAll bitDistance [⟨false, "X"⟩, ⟨false, "Y"⟩]).SearchSimilars bitDistance 0
        = .done m ∧ getList "X" m = ["Y"] ∧ getList "Y" m = ["X"] := by
  refine ⟨by decide, ?_⟩
  rintro ⟨m, hm, _, hY⟩
  have hrun : (AddAll bitDistance [⟨false, "X"⟩, ⟨false, "Y"⟩]).SearchSimilars bitDistance 0
      = .done [("X", ["Y"])] := by decide
  rw [hrun] at hm
  cases hm
  exact absurd hY (by decide)

/-! ## Add followed by SearchByName, and the populate loop -/

section PopulateFacts

variable {H : Type} (hd : H → H → Int)

/-- The images of a tree after `Add` are the image added and the images before. -/
theorem Add_items_perm (tree : BKTree H) (x : ImageInfo H) :
    List.Perm (tree.Add hd x).items (x :: tree.items) := by
  cases hroot : tree.Root with
  | none => simp [BKTree.Add, hroot, BKTree.items, BKTree.nodes, newbkTreeNode]
  | some root =>
    have h := AddLoop_items_perm hd x root
    simpa [BKTree.Add, hroot, BKTree.items, BKTree.nodes, bkTreeNode.items] using h

/-- `SearchByName` ends normally, with nil exactly when no stored image has the name. -/
theorem SearchByName_none_iff (tree : BKTree H) (name : String) :
    ∃ r, tree.SearchByName name = .done r ∧
      (r = none ↔ name ∉ tree.items.map ImageInfo.Name) := by
  obtain ⟨order, hperm, hrun⟩ := SearchByName_spec tree name
  refine ⟨_, hrun, ?_⟩
  rw [List.find?_eq_none]
  constructor
  · intro h hmem
    obtain ⟨i, hi, hn⟩ := List.mem_map.1 hmem
    exact h i (hperm.symm.subset hi) (by simpa using hn)
  · intro h i hi hn
    exact h (List.mem_map.2 ⟨i, hperm.subset hi, by simpa using hn⟩)

/-- One step of the populate loop ends normally; it keeps the tree when the
name is stored and adds the image otherwise. -/
theorem populateStep_spec (tree : BKTree H) (x : ImageInfo H) :
    (x.Name ∈ tree.items.map ImageInfo.Name → populateStep hd tree x = .done tree) ∧
    (x.Name ∉ tree.items.map ImageInfo.Name →
      populateStep hd tree x = .done (tree.Add hd x)) := by
  obtain ⟨r, hrun, hiff⟩ := SearchByName_none_iff tree x.Name
  constructor
  · intro hmem
    cases r with
    | none => exact absurd hmem (hiff.1 rfl)
    | some i => simp [populateStep, hrun]
  · intro hmem
    have hr : r = none := hiff.2 hmem
    subst hr
    simp [populateStep, hrun]

/-- When every name of `xs` is stored the populate loop leaves the tree as it is. -/
theorem populate_fixed : ∀ (xs : List (ImageInfo H)) (tree : BKTree H),
    (∀ x ∈ xs, x.Name ∈ tree.items.map ImageInfo.Name) → populate hd tree xs = .done tree := by
  intro xs
  induction xs with
  | nil => intro tree _; rfl
  | cons x rest ih =>
    intro tree h
    rw [populate, (populateStep_spec hd tree x).1 (h x (List.mem_cons_self _ _))]
    exact ih tree (fun y hy => h y (List.mem_cons_of_mem _ hy))

/-- The populate loop ends normally with a tree that stores every name stored
before and every name of `xs`. -/
theorem populate_spec : ∀ (xs : List (ImageInfo H)) (tree : BKTree H),
    ∃ tree1, populate hd tree xs = .done tree1 ∧
      (∀ n ∈ tree.items.map ImageInfo.Name, n ∈ tree1.items.map ImageInfo.Name) ∧
      (∀ x ∈ xs, x.Name ∈ tree1.items.map ImageInfo.Name) := by
  intro xs
  induction xs with
  | nil => intro tree; exact ⟨tree, rfl, fun n hn => hn, by simp⟩
  | cons x rest ih =>
    intro tree
    by_cases hmem : x.Name ∈ tree.items.map ImageInfo.Name
    · obtain ⟨t1, hrun, hold, hnew⟩ := ih tree
      refine ⟨t1, ?_, hold, ?_⟩
      · rw [populate, (populateStep_spec hd tree x).1 hmem]
        exact hrun
      · intro y hy
        simp only [List.mem_cons] at hy
        rcases hy with rfl | hy
        · exact hold _ hmem
        · exact hnew y hy
    · obtain ⟨t1, hrun, hold, hnew⟩ := ih (tree.Add hd x)
      have hsub : ∀ n ∈ (x :: tree.items).map ImageInfo.Name,
          n ∈ (tree.Add hd x).items.map ImageInfo.Name := by
        intro n hn
        exact ((Add_items_perm hd tree x).map ImageInfo.Name).symm.subset hn
      refine ⟨t1, ?_, ?_, ?_⟩
      · rw [populate, (populateStep_spec hd tree x).2 hmem]
        exact hrun
      · intro n hn
        exact hold n (hsub n (by
          rw [List.map_cons]
          exact List.mem_cons_of_mem _ hn))
      · intro y hy
        simp only [List.mem_cons] at hy
        rcases hy with rfl | hy
        · exact hold _ (hsub _ (by simp))
        · exact hnew y hy

/-- C11. Sequential populate-if-absent is idempotent: on every tree and list of
images the populate loop ends normally, and run again over the same list on the
tree it produced it ends normally with that same tree: the second run adds no
node. -/
theorem populate_idempotent (tree : BKTree H) (xs : List (ImageInfo H)) :
    ∃ tree1, populate hd tree xs = .done tree1 ∧ populate hd tree1 xs = .done tree1 := by
  obtain ⟨t1, hrun, _, hnew⟩ := populate_spec hd xs tree
  exact ⟨t1, hrun, populate_fixed hd xs t1 hnew⟩

/-- An image `SearchByName` returns is a stored image carrying the name asked for. -/
theorem SearchByName_some (tree : BKTree H) (name : String) (i : ImageInfo H)
    (h : tree.SearchByName name = .done (some i)) : i ∈ tree.items ∧ i.Name = name := by
  obtain ⟨order, hperm, hrun⟩ := SearchByName_spec tree name
  rw [h] at hrun
  have hfind : order.find? (fun i => decide (i.Name = name)) = some i := by
    injection hrun with h1
    exact h1.symm
  exact ⟨hperm.subset (List.mem_of_find?_eq_some hfind), by simpa using List.find?_some hfind⟩

/-- C20. After `Add(x)`, `SearchByName(name(x))` is found: it returns an image
stored in the new tree whose name is `name(x)`.  Every name for which
`SearchByName` returned an image before the `Add` (a stored image of that name)
is still found after it: the call returns an image stored in the new tree that
carries that name. -/
theorem add_then_search_by_name (tree : BKTree H) (x : ImageInfo H) :
    (∃ i, (tree.Add hd x).SearchByName x.Name = .done (some i) ∧
      i.Name = x.Name ∧ i ∈ (tree.Add hd x).items) ∧
    ∀ name j, tree.SearchByName name = .done (some j) →
      (j.Name = name ∧ j ∈ tree.items) ∧
      ∃ j1, (tree.Add hd x).SearchByName name = .done (some j1) ∧
        j1.Name = name ∧ j1 ∈ (tree.Add hd x).items := by
  have hperm := (Add_items_perm hd tree x).map ImageInfo.Name
  constructor
  · obtain ⟨r, hrun, hiff⟩ := SearchByName_none_iff (tree.Add hd x) x.Name
    cases r with
    | none => exact absurd (hperm.symm.subset (by simp)) (hiff.1 rfl)
    | some i =>
      obtain ⟨h1, h2⟩ := SearchByName_some (tree.Add hd x) x.Name i hrun
      exact ⟨i, hrun, h2, h1⟩
  · intro name j hj
    obtain ⟨hj1, hj2⟩ := SearchByName_some tree name j hj
    refine ⟨⟨hj2, hj1⟩, ?_⟩
    have hstored : name ∈ tree.items.map ImageInfo.Name :=
      List.mem_map.2 ⟨j, hj1, hj2⟩
    obtain ⟨r, hrun, hiff⟩ := SearchByName_none_iff (tree.Add hd x) name
    cases r with
    | none =>
      exact absurd (hperm.symm.subset (List.mem_cons_of_mem _ hstored)) (hiff.1 rfl)
    | some j1 =>
      obtain ⟨h1, h2⟩ := SearchByName_some (tree.Add hd x) name j1 hrun
      exact ⟨j1, hrun, h2, h1⟩

end PopulateFacts

/-! ## The descent of Add: iterations and positions -/

section DescentFacts

variable {H : Type} (hd : H → H → Int)

theorem AddChildren_eq_setChild (val : ImageInfo H) (d : Int) (cs : List (Int × bkTreeNode H)) :
    AddChildren hd val d cs =
      setChild d (match getChild d cs with
        | none => newbkTreeNode val
        | some t => AddLoop hd val t) cs := by
  induction cs with
  | nil => simp [getChild, setChild]
  | cons e rest ih =>
    obtain ⟨k, c⟩ := e
    by_cases hk : k = d
    · simp [AddChildren_cons, getChild, setChild, hk]
    · simp [AddChildren_cons, getChild, setChild, hk, ih]

theorem AddPath_mk (val img : ImageInfo H) (cs : List (Int × bkTreeNode H)) :
    AddPath hd val (.mk img cs) =
      DistanceFrom hd img val ::
        (match getChild (DistanceFrom hd img val) cs with
          | none => []
          | some t => AddPath hd val t) := by
  rw [AddPath]
  congr 1
  generalize DistanceFrom hd img val = d
  induction cs with
  | nil => simp [AddPathChildren, getChild]
  | cons e rest ih =>
    obtain ⟨k, c⟩ := e
    by_cases hk : k = d
    · simp [AddPathChildren, getChild, hk]
    · simp [AddPathChildren, getChild, hk, ih]

/-- The loop of `Add` ends normally exactly when the fuel covers the keys it reads. -/
theorem AddDescent_eq (val : ImageInfo H) :
    ∀ (t : bkTreeNode H) (fuel : Nat),
      AddDescent hd val fuel t =
        if (AddPath hd val t).length ≤ fuel then .done (AddLoop hd val t) else .outOfFuel := by
  refine bkTreeNode.induct_children ?_
  intro img cs ih fuel
  cases fuel with
  | zero => simp [AddDescent, AddPath_mk]
  | succ fuel =>
    rw [AddDescent, AddPath_mk, AddLoop_mk, AddChildren_eq_setChild]
    simp only [Image_mk, Children_mk]
    cases hg : getChild (DistanceFrom hd img val) cs with
    | none => simp
    | some t =>
      have ht := ih _ (getChild_mem hg) fuel
      simp only [hg] at ht ⊢
      rw [ht]
      by_cases hlen : (AddPath hd val t).length ≤ fuel
      · simp [hlen]
      · simp [hlen]

theorem depth_mk (img : ImageInfo H) (cs : List (Int × bkTreeNode H)) :
    (bkTreeNode.mk img cs).depth = depthChildren cs := by
  rw [bkTreeNode.depth]

theorem depth_child_lt {cs : List (Int × bkTreeNode H)} {e : Int × bkTreeNode H}
    (he : e ∈ cs) : e.2.depth + 1 ≤ depthChildren cs := by
  induction cs with
  | nil => simp at he
  | cons e' rest ih =>
    obtain ⟨k, c⟩ := e'
    rw [depthChildren]
    simp only [List.mem_cons] at he
    rcases he with rfl | he
    · exact le_max_left _ _
    · exact le_trans (ih he) (le_max_right _ _)

theorem AddPath_length_le_depth (val : ImageInfo H) :
    ∀ t : bkTreeNode H, (AddPath hd val t).length ≤ t.depth + 1 := by
  refine bkTreeNode.induct_children ?_
  intro img cs ih
  rw [AddPath_mk, depth_mk]
  cases hg : getChild (DistanceFrom hd img val) cs with
  | none => simp
  | some t =>
    have h1 := ih _ (getChild_mem hg)
    have h2 := depth_child_lt (getChild_mem hg)
    simp only [List.length_cons] at h1 h2 ⊢
    omega

theorem depth_lt_size : ∀ t : bkTreeNode H, t.depth + 1 ≤ t.size := by
  refine @bkTreeNode.induct H (fun t => t.depth + 1 ≤ t.size)
    (fun cs => depthChildren cs ≤ (nodesChildren cs).length) ?_ ?_ ?_
  · intro img cs ih
    rw [depth_mk, bkTreeNode.size, nodes_mk, List.length_cons]
    omega
  · simp [depthChildren]
  · intro k c rest hc hrest
    rw [depthChildren, nodesChildren_cons, List.length_append]
    have hc' : c.depth + 1 ≤ c.nodes.length := hc
    exact max_le (by omega) (by omega)

/-- C13. For every tree and image, with any distance function, the loop of
`Add` ends normally: it performs as many iterations as it reads keys, that is
at most `depth + 1`, hence at most as many as the tree has nodes, and with
that many iterations allowed it leaves the tree `Add` produces. -/
theorem add_terminates_within_depth (root : bkTreeNode H) (val : ImageInfo H) :
    (∀ fuel, AddDescent hd val fuel root =
      if (AddPath hd val root).length ≤ fuel then .done (AddLoop hd val root) else .outOfFuel) ∧
    (AddPath hd val root).length ≤ root.depth + 1 ∧
    root.depth + 1 ≤ root.size ∧
    AddDescent hd val (root.depth + 1) root = .done (AddLoop hd val root) ∧
    AddDescent hd val root.size root = .done (AddLoop hd val root) ∧
    (BKTree.mk (some root)).Add hd val = BKTree.mk (some (AddLoop hd val root)) := by
  have h1 := AddPath_length_le_depth hd val root
  have h2 := depth_lt_size root
  refine ⟨AddDescent_eq hd val root, h1, h2, ?_, ?_, rfl⟩
  · rw [AddDescent_eq, if_pos h1]
  · rw [AddDescent_eq, if_pos (le_trans h1 h2)]

@[simp] theorem nodeAt_nil (t : bkTreeNode H) : nodeAt [] t = some t := by
  rw [nodeAt]

theorem nodeAt_cons (k : Int) (path : List Int) (t : bkTreeNode H) :
    nodeAt (k :: path) t =
      (match getChild k t.Children with
        | none => none
        | some c => nodeAt path c) := by
  rw [nodeAt]

/-- The position the loop of `Add` reaches is free before and holds the new
leaf after; at every other position the image is the one before. -/
theorem nodeAt_AddLoop (val : ImageInfo H) :
    ∀ t : bkTreeNode H,
      nodeAt (AddPath hd val t) t = none ∧
      nodeAt (AddPath hd val t) (AddLoop hd val t) = some (newbkTreeNode val) ∧
      ∀ path, path ≠ AddPath hd val t →
        (nodeAt path (AddLoop hd val t)).map bkTreeNode.Image =
          (nodeAt path t).map bkTreeNode.Image := by
  refine bkTreeNode.induct_children ?_
  intro img cs ih
  rw [AddPath_mk, AddLoop_mk]
  cases hg : getChild (DistanceFrom hd img val) cs with
  | none =>
    refine ⟨?_, ?_, ?_⟩
    · simp [nodeAt_cons, hg]
    · simp [nodeAt_cons, getChild_AddChildren, hg]
    · intro path hpath
      cases path with
      | nil => simp
      | cons k rest =>
        rw [nodeAt_cons, nodeAt_cons, Children_mk, Children_mk, getChild_AddChildren]
        by_cases hk : k = DistanceFrom hd img val
        · subst hk
          have hrest : rest ≠ [] := by
            intro h
            exact hpath (by simp [h])
          cases rest with
          | nil => exact absurd rfl hrest
          | cons k1 rest1 => simp [hg, nodeAt_cons, newbkTreeNode, getChild]
        · simp [hk]
  | some t =>
    obtain ⟨h1, h2, h3⟩ := ih _ (getChild_mem hg)
    simp only at h1 h2 h3
    refine ⟨?_, ?_, ?_⟩
    · simpa [nodeAt_cons, hg] using h1
    · simpa [nodeAt_cons, getChild_AddChildren, hg] using h2
    · intro path hpath
      cases path with
      | nil => simp
      | cons k rest =>
        rw [nodeAt_cons, nodeAt_cons, Children_mk, Children_mk, getChild_AddChildren]
        by_cases hk : k = DistanceFrom hd img val
        · subst hk
          have hrest : rest ≠ AddPath hd val t := by
            intro h
            exact hpath (by simp [h])
          simpa [hg] using h3 rest hrest
        · simp [hk]

theorem getChild_of_mem {cs : List (Int × bkTreeNode H)} (hnd : (cs.map Prod.fst).Nodup)
    {e : Int × bkTreeNode H} (he : e ∈ cs) : getChild e.1 cs = some e.2 := by
  induction cs with
  | nil => simp at he
  | cons e' rest ih =>
    obtain ⟨k, c⟩ := e'
    simp only [List.map_cons, List.nodup_cons] at hnd
    simp only [List.mem_cons] at he
    rcases he with rfl | he
    · simp [getChild]
    · have hk : k ≠ e.1 := by
        intro h
        exact hnd.1 (h ▸ List.mem_map.2 ⟨e, he, rfl⟩)
      simp [getChild, hk, ih hnd.2 he]

/-- In a tree whose children maps have distinct keys every node is at some position. -/
theorem exists_nodeAt :
    ∀ t : bkTreeNode H, (∀ p ∈ t.nodes, (p.Children.map Prod.fst).Nodup) →
      ∀ p ∈ t.nodes, ∃ path, nodeAt path t = some p := by
  refine bkTreeNode.induct_children ?_
  intro img cs ih hnd p hp
  rw [nodes_mk, List.mem_cons] at hp
  rcases hp with rfl | hp
  · exact ⟨[], by simp⟩
  · obtain ⟨e, he, hpe⟩ := mem_nodesChildren.1 hp
    have hsub : ∀ q ∈ e.2.nodes, (q.Children.map Prod.fst).Nodup := by
      intro q hq
      exact hnd q (by
        rw [nodes_mk]
        exact List.mem_cons_of_mem _ (mem_nodesChildren.2 ⟨e, he, hq⟩))
    obtain ⟨path, hpath⟩ := ih e he hsub p hpe
    have hroot : (cs.map Prod.fst).Nodup := by
      simpa using hnd (.mk img cs) (by simp)
    refine ⟨e.1 :: path, ?_⟩
    rw [nodeAt_cons, Children_mk, getChild_of_mem hroot he]
    exact hpath

/-- C16. `Add` on a non-empty tree removes, moves or alters no node: with `P`
the path of keys the descent follows, the image at every position other than
`P` is the same before and after (so every node keeps its position and its
image), position `P` is free before and holds a leaf with the new image after,
and in a tree whose maps have distinct keys every node is at some position. -/
theorem add_changes_only_new_leaf (root : bkTreeNode H) (x : ImageInfo H) :
    (∀ path, path ≠ AddPath hd x root →
      ((BKTree.mk (some root)).Add hd x).itemAt path = (BKTree.mk (some root)).itemAt path) ∧
    (BKTree.mk (some root)).itemAt (AddPath hd x root) = none ∧
    ((BKTree.mk (some root)).Add hd x).itemAt (AddPath hd x root) = some x ∧
    ((BKTree.mk (some root)).Add hd x).keysAt (AddPath hd x root) = some [] ∧
    ((BKTree.mk (some root)).KeysDistinct →
      ∀ p ∈ root.nodes, ∃ path, nodeAt path root = some p) := by
  obtain ⟨h1, h2, h3⟩ := nodeAt_AddLoop hd x root
  refine ⟨?_, ?_, ?_, ?_, ?_⟩
  · intro path hpath
    simpa [BKTree.itemAt, BKTree.Add] using h3 path hpath
  · simp [BKTree.itemAt, h1]
  · simp [BKTree.itemAt, BKTree.Add, h2, newbkTreeNode]
  · simp [BKTree.keysAt, BKTree.Add, h2, newbkTreeNode]
  · intro hk
    exact exists_nodeAt root hk

/-- C18. In every tree built by `Add` from the empty tree, for every node `p`
and every child stored under key `k` in `p`, every image stored anywhere in
that child's subtree is at distance `k` from the image of `p`. -/
theorem subtree_distance_invariant (xs : List (ImageInfo H)) :
    (AddAll hd xs).SubtreeDistances hd := by
  intro p hp e he x hx
  exact AddAll_subtreeDistances hd xs p hp e he x hx

end DescentFacts

/-! ## The worklist is never empty when its head is taken -/

section DrainFacts

variable {H : Type} (hd : H → H → Int)

theorem SearchLoop_ne_fault (val : ImageInfo H) (radius : Int) :
    ∀ (fuel : Nat) (cands : List (bkTreeNode H)) (res : List (ImageInfo H)),
      cands ≠ [] → SearchLoop hd val radius fuel cands res ≠ .fault := by
  intro fuel
  induction fuel with
  | zero => intro cands res _; simp [SearchLoop]
  | succ fuel ih =>
    intro cands res hne
    cases cands with
    | nil => exact absurd rfl hne
    | cons c rest =>
      rw [SearchLoop_cons]
      split
      · simp
      · rename_i hemp
        exact ih _ _ (by simpa using hemp)

theorem SearchByNameLoop_ne_fault (name : String) :
    ∀ (fuel : Nat) (cands : List (bkTreeNode H)),
      cands ≠ [] → SearchByNameLoop name fuel cands ≠ .fault := by
  intro fuel
  induction fuel with
  | zero => intro cands _; simp [SearchByNameLoop]
  | succ fuel ih =>
    intro cands hne
    cases cands with
    | nil => exact absurd rfl hne
    | cons c rest =>
      rw [SearchByNameLoop]
      split
      · simp
      · simp only
        split
        · simp
        · rename_i hemp
          exact ih _ (by simpa using hemp)

theorem SearchSimilarsLoop_ne_fault (tree : BKTree H) (radius : Int) :
    ∀ (fuel : Nat) (cands : List (bkTreeNode H)) (results : List (String × List String)),
      cands ≠ [] → SearchSimilarsLoop hd tree radius fuel cands results ≠ .fault := by
  intro fuel
  induction fuel with
  | zero => intro cands results _; simp [SearchSimilarsLoop]
  | succ fuel ih =>
    intro cands results hne
    cases cands with
    | nil => exact absurd rfl hne
    | cons c rest =>
      rw [SearchSimilarsLoop, Search_eq_done]
      simp only
      split
      · simp
      · rename_i hemp
        exact ih _ _ (by simpa using hemp)

theorem SearchDrain_cons (val : ImageInfo H) (radius : Int) (fuel : Nat) (cand : bkTreeNode H)
    (rest : List (bkTreeNode H)) (res : List (ImageInfo H)) :
    SearchDrain hd val radius (fuel + 1) (cand :: rest) res =
      SearchDrain hd val radius fuel
        (rest ++ inWindow (wrapInt (DistanceFrom hd cand.Image val - radius))
          (wrapInt (DistanceFrom hd cand.Image val + radius)) cand.Children)
        (res ++ ownMatch hd val radius cand.Image) := by
  rw [SearchDrain]
  by_cases h : DistanceFrom hd cand.Image val ≤ radius ∧ cand.Image.Name ≠ val.Name
  · simp only [ownMatch, if_pos h]
  · simp only [ownMatch, if_neg h, List.append_nil]

theorem SearchLoop_eq_drain (val : ImageInfo H) (radius : Int) :
    ∀ (fuel : Nat) (cands : List (bkTreeNode H)) (res : List (ImageInfo H)),
      cands ≠ [] →
      SearchLoop hd val radius fuel cands res = SearchDrain hd val radius (fuel + 1) cands res := by
  intro fuel
  induction fuel with
  | zero =>
    intro cands res hne
    cases cands with
    | nil => exact absurd rfl hne
    | cons c rest => rw [SearchDrain_cons]; simp [SearchLoop, SearchDrain]
  | succ fuel ih =>
    intro cands res hne
    cases cands with
    | nil => exact absurd rfl hne
    | cons c rest =>
      rw [SearchLoop_cons, SearchDrain_cons]
      split
      · rename_i hemp
        have hnil : rest ++ inWindow (wrapInt (DistanceFrom hd c.Image val - radius))
            (wrapInt (DistanceFrom hd c.Image val + radius)) c.Children = [] := by
          simpa using hemp
        rw [hnil, SearchDrain]
      · rename_i hemp
        exact ih _ _ (by simpa using hemp)

theorem SearchByNameLoop_eq_drain (name : String) :
    ∀ (fuel : Nat) (cands : List (bkTreeNode H)),
      cands ≠ [] → (allNodes cands).length ≤ fuel →
      SearchByNameLoop name fuel cands = SearchByNameDrain name (fuel + 1) cands := by
  intro fuel
  induction fuel with
  | zero =>
    intro cands hne h
    exact absurd (allNodes_eq_nil h) hne
  | succ fuel ih =>
    intro cands hne h
    cases cands with
    | nil => exact absurd rfl hne
    | cons c rest =>
      rw [SearchByNameLoop, SearchByNameDrain]
      split
      · rfl
      · simp only
        split
        · rename_i hemp
          have hnil : rest ++ c.Children.map Prod.snd = [] := by simpa using hemp
          rw [hnil, SearchByNameDrain]
        · rename_i hemp
          have hlen : (allNodes (rest ++ c.Children.map Prod.snd)).length ≤ fuel := by
            simp only [allNodes_cons, List.length_cons, List.length_append] at h
            simp only [allNodes_append, List.length_append, ← nodesChildren_eq]
            omega
          exact ih _ (by simpa using hemp) hlen

theorem SearchSimilarsLoop_eq_drain (tree : BKTree H) (radius : Int) :
    ∀ (fuel : Nat) (cands : List (bkTreeNode H)) (results : List (String × List String)),
      cands ≠ [] →
      SearchSimilarsLoop hd tree radius fuel cands results =
        SearchSimilarsDrain hd tree radius (fuel + 1) cands results := by
  intro fuel
  induction fuel with
  | zero =>
    intro cands results hne
    cases cands with
    | nil => exact absurd rfl hne
    | cons c rest =>
      simp [SearchSimilarsLoop, SearchSimilarsDrain, Search_eq_done]
  | succ fuel ih =>
    intro cands results hne
    cases cands with
    | nil => exact absurd rfl hne
    | cons c rest =>
      rw [SearchSimilarsLoop, SearchSimilarsDrain, Search_eq_done]
      simp only
      split
      · rename_i hemp
        have hnil : rest ++ c.Children.map Prod.snd = [] := by simpa using hemp
        rw [hnil, SearchSimilarsDrain]
      · rename_i hemp
        exact ih _ _ (by simpa using hemp)

/-- C15. In `Search`, `SearchByName` and `SearchSimilars` the worklist is not
empty when `candidates[0]` is taken: started on a non-empty worklist the loops
never index an empty list, whatever the number of iterations allowed; on every
tree each operation ends normally, with the result of the standard drain that
tests for an empty worklist before taking a candidate. -/
theorem worklist_head_always_present (tree : BKTree H) (q : ImageInfo H) (r : Int)
    (name : String) :
    (∀ fuel cands res, cands ≠ [] → SearchLoop hd q r fuel cands res ≠ .fault) ∧
    (∀ fuel (cands : List (bkTreeNode H)), cands ≠ [] →
      SearchByNameLoop name fuel cands ≠ .fault) ∧
    (∀ fuel cands results, cands ≠ [] →
      SearchSimilarsLoop hd tree r fuel cands results ≠ .fault) ∧
    (∃ res, tree.Search hd q r = .done res ∧
      SearchDrain hd q r (tree.size + 1) tree.Root.toList [] = .done res) ∧
    (∃ o, tree.SearchByName name = .done o ∧
      SearchByNameDrain name (tree.size + 1) tree.Root.toList = .done o) ∧
    (∃ m, tree.SearchSimilars hd r = .done m ∧
      SearchSimilarsDrain hd tree r (tree.size + 1) tree.Root.toList [] = .done m) := by
  refine ⟨SearchLoop_ne_fault hd q r, SearchByNameLoop_ne_fault name,
    SearchSimilarsLoop_ne_fault hd tree r, ?_, ?_, ?_⟩
  · obtain ⟨res, hres, _⟩ := Search_spec hd tree q r
    refine ⟨res, hres, ?_⟩
    rw [← hres]
    cases hroot : tree.Root with
    | none => simp [BKTree.Search, hroot, SearchDrain]
    | some root =>
      simp only [BKTree.Search, hroot, BKTree.size, BKTree.nodes, Option.toList]
      exact (SearchLoop_eq_drain hd q r root.size [root] [] (by simp)).symm
  · obtain ⟨order, _, hrun⟩ := SearchByName_spec tree name
    refine ⟨_, hrun, ?_⟩
    rw [← hrun]
    cases hroot : tree.Root with
    | none => simp [BKTree.SearchByName, hroot, SearchByNameDrain]
    | some root =>
      have h : (allNodes [root]).length ≤ root.size := by
        simp [bkTreeNode.size, nodes_eq root]
      simp only [BKTree.SearchByName, hroot, BKTree.size, BKTree.nodes, Option.toList]
      exact (SearchByNameLoop_eq_drain name root.size [root] (by simp) h).symm
  · cases hroot : tree.Root with
    | none =>
      exact ⟨[], by simp [BKTree.SearchSimilars, hroot],
        by simp [SearchSimilarsDrain]⟩
    | some root =>
      have h : (allNodes [root]).length ≤ root.size := by
        simp [bkTreeNode.size, nodes_eq root]
      have hloop := SearchSimilarsLoop_spec hd tree r root.size [root] [] (by simp) h
      have hdrain := SearchSimilarsLoop_eq_drain hd tree r root.size [root] [] (by simp)
      refine ⟨_, by simpa [BKTree.SearchSimilars, hroot] using hloop, ?_⟩
      simp only [BKTree.size, BKTree.nodes, hroot, Option.toList]
      rw [← hloop]
      exact hdrain.symm

end DrainFacts

/-! ## The window of Search: exact bounds and wrap-around -/

section WindowFacts

variable {H : Type} (hd : H → H → Int)

/-- C17 (as amended). For a node distance `d ≥ 0` and a radius with
`d + radius` within the 64-bit `int` range, the window `[d - radius,
d + radius]` as `Search` computes it admits every child whose key `k` satisfies
`|k - d| ≤ radius`. -/
theorem window_admits_keys_without_overflow (d radius : Int)
    (cs : List (Int × bkTreeNode H)) (e : Int × bkTreeNode H)
    (hd0 : 0 ≤ d) (hov : d + radius ≤ maxInt) (he : e ∈ cs) (hk : |e.1 - d| ≤ radius) :
    e.2 ∈ inWindow (wrapInt (d - radius)) (wrapInt (d + radius)) cs := by
  have hmax : maxInt = 2 ^ 63 - 1 := rfl
  obtain ⟨h1, h2⟩ := abs_le.1 hk
  have hlow : wrapInt (d - radius) = d - radius := wrapInt_eq (by omega) (by omega)
  have hhigh : wrapInt (d + radius) = d + radius := wrapInt_eq (by omega) (by omega)
  rw [hlow, hhigh]
  exact mem_inWindow he (by omega) (by omega)

theorem reachable_mk (q : ImageInfo H) (r : Int) (img : ImageInfo H)
    (cs : List (Int × bkTreeNode H)) :
    (bkTreeNode.mk img cs).reachable hd q r =
      .mk img cs ::
        reachableChildren hd q r (DistanceFrom hd img q - r) (DistanceFrom hd img q + r) cs := by
  rw [bkTreeNode.reachable]

/-- Where neither bound of the window wraps around at any node, the pruned
matches are the matching images of the nodes reachable with the exact window. -/
theorem prunedMatches_eq_reachable (q : ImageInfo H) (r : Int) :
    ∀ t : bkTreeNode H,
      (∀ p ∈ t.nodes, (-2 ^ 63 ≤ DistanceFrom hd p.Image q - r ∧
        DistanceFrom hd p.Image q - r ≤ maxInt) ∧ (-2 ^ 63 ≤ DistanceFrom hd p.Image q + r ∧
        DistanceFrom hd p.Image q + r ≤ maxInt)) →
      t.prunedMatches hd q r =
        ((t.reachable hd q r).filter
          (fun n => decide (DistanceFrom hd n.Image q ≤ r ∧ n.Image.Name ≠ q.Name))).map
          bkTreeNode.Image := by
  refine @bkTreeNode.induct H
    (fun t => (∀ p ∈ t.nodes, (-2 ^ 63 ≤ DistanceFrom hd p.Image q - r ∧
        DistanceFrom hd p.Image q - r ≤ maxInt) ∧ (-2 ^ 63 ≤ DistanceFrom hd p.Image q + r ∧
        DistanceFrom hd p.Image q + r ≤ maxInt)) →
      t.prunedMatches hd q r =
        ((t.reachable hd q r).filter
          (fun n => decide (DistanceFrom hd n.Image q ≤ r ∧ n.Image.Name ≠ q.Name))).map
          bkTreeNode.Image)
    (fun cs => ∀ low high, (∀ p ∈ nodesChildren cs, (-2 ^ 63 ≤ DistanceFrom hd p.Image q - r ∧
        DistanceFrom hd p.Image q - r ≤ maxInt) ∧ (-2 ^ 63 ≤ DistanceFrom hd p.Image q + r ∧
        DistanceFrom hd p.Image q + r ≤ maxInt)) →
      prunedMatchesChildren hd q r low high cs =
        ((reachableChildren hd q r low high cs).filter
          (fun n => decide (DistanceFrom hd n.Image q ≤ r ∧ n.Image.Name ≠ q.Name))).map
          bkTreeNode.Image) ?_ ?_ ?_
  · intro img cs ih h
    have hmax : maxInt = 2 ^ 63 - 1 := rfl
    obtain ⟨⟨h1, h2⟩, h3, h4⟩ := h (.mk img cs) (by simp)
    simp only [Image_mk] at h1 h2 h3 h4
    have hlow : wrapInt (DistanceFrom hd img q - r) = DistanceFrom hd img q - r :=
      wrapInt_eq h1 (by omega)
    have hhigh : wrapInt (DistanceFrom hd img q + r) = DistanceFrom hd img q + r :=
      wrapInt_eq h3 (by omega)
    rw [bkTreeNode.prunedMatches, reachable_mk, hlow, hhigh,
      ih _ _ (fun p hp => h p (by simp [hp]))]
    by_cases hc : DistanceFrom hd img q ≤ r ∧ img.Name ≠ q.Name
    · simp [ownMatch, List.filter_cons, hc]
    · simp [ownMatch, List.filter_cons, hc]
  · intro low high _
    simp [prunedMatchesChildren, reachableChildren]
  · intro k c rest hc hrest low high h
    rw [prunedMatchesChildren, reachableChildren,
      hrest low high (fun p hp => h p (by simp [hp]))]
    by_cases hwin : low ≤ k ∧ k ≤ high
    · have hwin' : k ≥ low ∧ k ≤ high := hwin
      rw [if_pos hwin, if_pos hwin', hc (fun p hp => h p (by simp [hp]))]
      simp
    · have hwin' : ¬ (k ≥ low ∧ k ≤ high) := hwin
      rw [if_neg hwin, if_neg hwin']
      simp

/-- C14 (as amended). For every tree, with no assumption on the distance
function, and every query `q` and radius `r` for which `distance(p.item, q) - r`
and `distance(p.item, q) + r` stay within the 64-bit `int` range at every node
`p`, `Search(q, r)` ends normally and returns exactly the images of the nodes
`n` reachable from the root along edges whose key `k` satisfies
`distance(p.item, q) - r ≤ k ≤ distance(p.item, q) + r` at the parent `p` and
with `distance(n.item, q) ≤ r` and a name other than `q`'s, each node once. -/
theorem search_returns_reachable_matches (tree : BKTree H) (q : ImageInfo H) (r : Int)
    (hov : ∀ p ∈ tree.nodes, (-2 ^ 63 ≤ DistanceFrom hd p.Image q - r ∧
      DistanceFrom hd p.Image q - r ≤ maxInt) ∧ (-2 ^ 63 ≤ DistanceFrom hd p.Image q + r ∧
      DistanceFrom hd p.Image q + r ≤ maxInt)) :
    ∃ res, tree.Search hd q r = .done res ∧
      List.Perm res (tree.reachableMatches hd q r) := by
  obtain ⟨res, hres, hperm⟩ := Search_spec hd tree q r
  refine ⟨res, hres, ?_⟩
  cases hroot : tree.Root with
  | none => simpa [BKTree.reachableMatches, hroot] using hperm
  | some root =>
    simp only [hroot] at hperm
    simp only [BKTree.nodes, hroot] at hov
    rw [prunedMatches_eq_reachable hd q r root hov] at hperm
    simpa [BKTree.reachableMatches, hroot] using hperm

end WindowFacts

/-- Witness of C17 (as amended): distance 1, radius 4 and a child under key 4. -/
theorem window_admits_keys_without_overflow_witness :
    ((0 : Int) ≤ 1 ∧ (1 : Int) + 4 ≤ maxInt ∧ |(4 : Int) - 1| ≤ 4) ∧
    newbkTreeNode (⟨true, "B"⟩ : ImageInfo Bool) ∈
      inWindow (wrapInt (1 - 4)) (wrapInt (1 + 4))
        [((4 : Int), newbkTreeNode (⟨true, "B"⟩ : ImageInfo Bool))] :=
  ⟨by decide,
    window_admits_keys_without_overflow 1 4 [(4, newbkTreeNode ⟨true, "B"⟩)]
      (4, newbkTreeNode ⟨true, "B"⟩) (by decide) (by decide) (List.mem_cons_self _ _)
      (by decide)⟩

/-- Counterexample to C17 as stated: at node distance 1 and radius `2^63 - 1`
(the largest `int`), `dist+radius` wraps around to `-2^63`, and the child under
key 1, for which `|1 - 1| ≤ radius`, is not admitted by the window. -/
theorem window_overflow_counterexample :
    (0 : Int) ≤ 1 ∧ -2 ^ 63 ≤ maxInt ∧ maxInt ≤ 2 ^ 63 - 1 ∧ |(1 : Int) - 1| ≤ maxInt ∧
    wrapInt (1 + maxInt) = -2 ^ 63 ∧
    (inWindow (wrapInt (1 - maxInt)) (wrapInt (1 + maxInt))
      [((1 : Int), newbkTreeNode (⟨true, "B"⟩ : ImageInfo Bool))]).isEmpty = true := by
  decide

/-- Witness of C14 (as amended): the tree of `A`, `B`, `C` and the query `A` at
radius 4. -/
theorem search_returns_reachable_matches_witness :
    (∀ p ∈ (AddAll absDiff [⟨0, "A"⟩, ⟨4, "B"⟩, ⟨5, "C"⟩]).nodes,
      (-2 ^ 63 ≤ DistanceFrom absDiff p.Image ⟨0, "A"⟩ - 4 ∧
        DistanceFrom absDiff p.Image ⟨0, "A"⟩ - 4 ≤ maxInt) ∧
      (-2 ^ 63 ≤ DistanceFrom absDiff p.Image ⟨0, "A"⟩ + 4 ∧
        DistanceFrom absDiff p.Image ⟨0, "A"⟩ + 4 ≤ maxInt)) ∧
    ∃ res, (AddAll absDiff [⟨0, "A"⟩, ⟨4, "B"⟩, ⟨5, "C"⟩]).Search absDiff ⟨0, "A"⟩ 4
        = .done res ∧
      List.Perm res
        ((AddAll absDiff [⟨0, "A"⟩, ⟨4, "B"⟩, ⟨5, "C"⟩]).reachableMatches absDiff ⟨0, "A"⟩ 4) :=
  ⟨by decide,
    search_returns_reachable_matches absDiff (AddAll absDiff [⟨0, "A"⟩, ⟨4, "B"⟩, ⟨5, "C"⟩])
      ⟨0, "A"⟩ 4 (by decide)⟩

/-- Counterexample to C14 as stated: in the tree of `A` (hash 0) and `B` (hash 1)
with the query `Q` (hash 1) at radius `2^63 - 1`, the node of `B` is reachable
with the exact window (its key 1 lies between `1 - r` and `1 + r`) and matches,
but `Search` returns `A` alone: the computed `high` has wrapped around. -/
theorem search_reachable_counterexample :
    (AddAll bitDistance [⟨false, "A"⟩, ⟨true, "B"⟩]).reachableMatches bitDistance
        ⟨true, "Q"⟩ maxInt = [⟨false, "A"⟩, ⟨true, "B"⟩] ∧
    (AddAll bitDistance [⟨false, "A"⟩, ⟨true, "B"⟩]).Search bitDistance ⟨true, "Q"⟩ maxInt
      = .done [⟨false, "A"⟩] ∧
    ¬ ∃ res, (AddAll bitDistance [⟨false, "A"⟩, ⟨true, "B"⟩]).Search bitDistance
          ⟨true, "Q"⟩ maxInt = .done res ∧
        List.Perm res ((AddAll bitDistance [⟨false, "A"⟩, ⟨true, "B"⟩]).reachableMatches
          bitDistance ⟨true, "Q"⟩ maxInt) := by
  have hspec : (AddAll bitDistance [⟨false, "A"⟩, ⟨true, "B"⟩]).reachableMatches bitDistance
      ⟨true, "Q"⟩ maxInt = [⟨false, "A"⟩, ⟨true, "B"⟩] := by decide
  have hrun : (AddAll bitDistance [⟨false, "A"⟩, ⟨true, "B"⟩]).Search bitDistance
      ⟨true, "Q"⟩ maxInt = .done [⟨false, "A"⟩] := by decide
  refine ⟨hspec, hrun, ?_⟩
  rintro ⟨res, hres, hperm⟩
  rw [hrun] at hres
  cases hres
  rw [hspec] at hperm
  exact absurd hperm.length_eq (by decide)

/-! ## The mapping of SearchSimilars: reads, writes and the fold on names -/

section MappingFacts

theorem getList_setList_self (k : String) (v : List String) (m : List (String × List String)) :
    getList k (setList k v m) = v := by
  induction m with
  | nil => simp [setList, getList]
  | cons e rest ih =>
    obtain ⟨k1, w⟩ := e
    by_cases hk : k1 = k
    · simp [setList, getList, hk]
    · simp [setList, getList, hk, ih]

theorem getList_setList_ne {k k1 : String} (h : k1 ≠ k) (v : List String)
    (m : List (String × List String)) :
    getList k1 (setList k v m) = getList k1 m := by
  induction m with
  | nil => simp [setList, getList, Ne.symm h]
  | cons e rest ih =>
    obtain ⟨k2, w⟩ := e
    by_cases hk : k2 = k
    · subst hk
      simp [setList, getList, Ne.symm h]
    · by_cases hk1 : k2 = k1
      · subst hk1
        simp [setList, getList, hk]
      · simp [setList, getList, hk, hk1, ih]

theorem hasKey_cons (k1 k2 : String) (w : List String) (rest : List (String × List String)) :
    hasKey k1 ((k2, w) :: rest) = true ↔ (k2 = k1 ∨ hasKey k1 rest = true) := by
  simp [hasKey]

theorem hasKey_setList (k k1 : String) (v : List String) (m : List (String × List String)) :
    hasKey k1 (setList k v m) = true ↔ (k1 = k ∨ hasKey k1 m = true) := by
  induction m with
  | nil =>
    rw [setList, hasKey_cons]
    constructor
    · rintro (h | h)
      · exact Or.inl h.symm
      · exact Or.inr h
    · rintro (h | h)
      · exact Or.inl h.symm
      · exact Or.inr h
  | cons e rest ih =>
    obtain ⟨k2, w⟩ := e
    by_cases hk : k2 = k
    · subst hk
      rw [setList, if_pos rfl, hasKey_cons, hasKey_cons]
      constructor
      · rintro (h | h)
        · exact Or.inl h.symm
        · exact Or.inr (Or.inr h)
      · rintro (h | h | h)
        · exact Or.inl h.symm
        · exact Or.inl h
        · exact Or.inr h
    · rw [setList, if_neg hk, hasKey_cons, hasKey_cons, ih]
      tauto

theorem getList_of_not_hasKey {k : String} {m : List (String × List String)}
    (h : hasKey k m = false) : getList k m = [] := by
  induction m with
  | nil => simp [getList]
  | cons e rest ih =>
    obtain ⟨k1, w⟩ := e
    simp only [hasKey, List.any_cons, Bool.or_eq_false_iff, beq_eq_false_iff_ne] at h
    have hrest : hasKey k rest = false := h.2
    simp [getList, h.1, ih hrest]

theorem hasKey_of_getList_ne_nil {k : String} {m : List (String × List String)}
    (h : getList k m ≠ []) : hasKey k m = true := by
  cases hk : hasKey k m with
  | true => rfl
  | false => exact absurd (getList_of_not_hasKey hk) h

/-- The loop over the matches of one node: the names not yet visited are
appended under the node's name, in order; the other lists stay as they are. -/
theorem foldl_recordName (nm : String) (visited : List String) :
    ∀ (ms : List String) (m : List (String × List String)),
      nm ∉ ms →
      (∀ k, hasKey k m = true → k ∈ visited ∨ k = nm) →
      (∀ b ∈ ms, b ∈ visited → hasKey b m = true) →
      getList nm (ms.foldl (recordName nm) m) =
          getList nm m ++ ms.filter (fun b => decide (b ∉ visited)) ∧
        (∀ k, k ≠ nm → getList k (ms.foldl (recordName nm) m) = getList k m) ∧
        (∀ k, hasKey k (ms.foldl (recordName nm) m) = true → k ∈ visited ∨ k = nm) := by
  intro ms
  induction ms with
  | nil => intro m _ hK _; exact ⟨by simp, fun _ _ => rfl, hK⟩
  | cons b rest ih =>
    intro m hnm hK hV
    have hb : b ≠ nm := fun h => hnm (h ▸ List.mem_cons_self _ _)
    have hrest : nm ∉ rest := fun h => hnm (List.mem_cons_of_mem _ h)
    rw [List.foldl_cons]
    by_cases hvis : b ∈ visited
    · have hkey : hasKey b m = true := hV b (List.mem_cons_self _ _) hvis
      have hstep : recordName nm m b = m := by simp [recordName, hkey]
      rw [hstep]
      obtain ⟨h1, h2, h3⟩ := ih m hrest hK (fun c hc => hV c (List.mem_cons_of_mem _ hc))
      refine ⟨?_, h2, h3⟩
      rw [h1, List.filter_cons]
      simp [hvis]
    · have hkey : hasKey b m = false := by
        cases hk : hasKey b m with
        | false => rfl
        | true =>
          rcases hK b hk with h | h
          · exact absurd h hvis
          · exact absurd h hb
      have hstep : recordName nm m b = setList nm (getList nm m ++ [b]) m := by
        simp [recordName, hkey]
      rw [hstep]
      obtain ⟨h1, h2, h3⟩ := ih (setList nm (getList nm m ++ [b]) m) hrest
        (by
          intro k hk
          rcases (hasKey_setList nm k _ m).1 hk with h | h
          · exact Or.inr h
          · exact hK k h)
        (by
          intro c hc hcv
          exact (hasKey_setList nm c _ m).2 (Or.inr (hV c (List.mem_cons_of_mem _ hc) hcv)))
      refine ⟨?_, ?_, h3⟩
      · rw [h1, getList_setList_self, List.filter_cons]
        simp [hvis]
      · intro k hk
        rw [h2 k hk, getList_setList_ne hk]

theorem takeWhile_ne_front (x : String) (as bs : List String) (h : x ∉ as) :
    (as ++ x :: bs).takeWhile (fun y => decide (y ≠ x)) = as := by
  induction as with
  | nil => simp [List.takeWhile_cons]
  | cons a rest ih =>
    have ha : a ≠ x := fun hax => h (hax ▸ List.mem_cons_self _ _)
    have hrest : x ∉ rest := fun hx => h (List.mem_cons_of_mem _ hx)
    rw [List.cons_append, List.takeWhile_cons_of_pos (by simpa using ha), ih hrest]

/-- The fold of `SearchSimilars` over entries (name, names of the matches) with
distinct names, no entry matching itself and symmetric matches: the list under
the name of an entry holds its matches that come after it, in order. -/
theorem foldl_similarsStep (E : List (String × List String))
    (hnodup : (E.map Prod.fst).Nodup) (hself : ∀ e ∈ E, e.1 ∉ e.2)
    (hsymm : ∀ e ∈ E, ∀ f ∈ E, f.1 ∈ e.2 → e.1 ∈ f.2) :
    ∀ (R P : List (String × List String)) (m : List (String × List String)),
      E = P ++ R →
      (∀ k, hasKey k m = true → k ∈ P.map Prod.fst) →
      (∀ p ∈ P, getList p.1 m = p.2.filter
        (fun b => decide (b ∉ (E.map Prod.fst).takeWhile (fun y => decide (y ≠ p.1))))) →
      ∀ p ∈ E, getList p.1 (R.foldl similarsStep m) = p.2.filter
        (fun b => decide (b ∉ (E.map Prod.fst).takeWhile (fun y => decide (y ≠ p.1)))) := by
  intro R
  induction R with
  | nil =>
    intro P m hE _ hG p hp
    rw [hE, List.append_nil] at hp
    exact hG p hp
  | cons e rest ih =>
    intro P m hE hK hG
    have heE : e ∈ E := by rw [hE]; simp
    have hnames : E.map Prod.fst = P.map Prod.fst ++ e.1 :: rest.map Prod.fst := by
      rw [hE]; simp
    have hnd := hnodup
    rw [hnames, List.nodup_append] at hnd
    have heP : e.1 ∉ P.map Prod.fst := by
      intro h
      exact hnd.2.2 h (List.mem_cons_self _ _)
    have htake : (E.map Prod.fst).takeWhile (fun y => decide (y ≠ e.1)) = P.map Prod.fst := by
      rw [hnames]
      exact takeWhile_ne_front e.1 _ _ heP
    have hV : ∀ b ∈ e.2, b ∈ P.map Prod.fst → hasKey b m = true := by
      intro b hb hbP
      obtain ⟨p, hp, rfl⟩ := List.mem_map.1 hbP
      have hpE : p ∈ E := by rw [hE]; exact List.mem_append_left _ hp
      have hep : e.1 ∈ p.2 := hsymm e heE p hpE hb
      apply hasKey_of_getList_ne_nil
      rw [hG p hp]
      intro hnil
      have hmem : e.1 ∈ p.2.filter
          (fun b => decide (b ∉ (E.map Prod.fst).takeWhile (fun y => decide (y ≠ p.1)))) := by
        rw [List.mem_filter]
        refine ⟨hep, ?_⟩
        simp only [decide_eq_true_eq]
        intro hin
        have hsub := (List.takeWhile_sublist (fun y => decide (y ≠ p.1))).subset hin
        obtain ⟨as, bs, hsplit⟩ := List.append_of_mem hp
        have hpnames : E.map Prod.fst =
            as.map Prod.fst ++ p.1 :: (bs.map Prod.fst ++ e.1 :: rest.map Prod.fst) := by
          rw [hnames, hsplit]; simp
        have hnd2 := hnodup
        rw [hpnames, List.nodup_append] at hnd2
        have hpas : p.1 ∉ as.map Prod.fst := fun h => hnd2.2.2 h (List.mem_cons_self _ _)
        rw [hpnames, takeWhile_ne_front p.1 _ _ hpas] at hin
        exact heP (by rw [hsplit]; simp [hin])
      rw [hnil] at hmem
      simp at hmem
    obtain ⟨h1, h2, h3⟩ := foldl_recordName e.1 (P.map Prod.fst) e.2 m (hself e heE)
      (fun k hk => Or.inl (hK k hk)) hV
    have hnone : getList e.1 m = [] := by
      apply getList_of_not_hasKey
      cases hk : hasKey e.1 m with
      | false => rfl
      | true => exact absurd (hK _ hk) heP
    rw [List.foldl_cons]
    refine ih (P ++ [e]) (similarsStep m e) (by rw [hE]; simp) ?_ ?_
    · intro k hk
      rcases h3 k hk with h | h
      · simp [h]
      · simp [h]
    · intro p hp
      rw [List.mem_append, List.mem_singleton] at hp
      rcases hp with hp | rfl
      · have hne : p.1 ≠ e.1 := by
          intro h
          exact heP (h ▸ List.mem_map.2 ⟨p, hp, rfl⟩)
        have := h2 p.1 hne
        simp only [similarsStep]
        rw [this, hG p hp]
      · simp only [similarsStep]
        rw [h1, hnone, htake, List.nil_append]

end MappingFacts

/-! ## SearchSimilars on trees built by Add -/

section SimilarsPairs

variable {H : Type} (hd : H → H → Int)

/-- The pruned matches of a subtree are among its images, in the same order. -/
theorem prunedMatches_sublist (q : ImageInfo H) (r : Int) :
    ∀ t : bkTreeNode H, List.Sublist (t.prunedMatches hd q r) t.items := by
  refine @bkTreeNode.induct H
    (fun t => List.Sublist (t.prunedMatches hd q r) t.items)
    (fun cs => ∀ low high, List.Sublist (prunedMatchesChildren hd q r low high cs)
      ((nodesChildren cs).map bkTreeNode.Image)) ?_ ?_ ?_
  · intro img cs ih
    rw [bkTreeNode.prunedMatches, items_mk]
    unfold ownMatch
    split
    · exact (ih _ _).cons₂ img
    · exact (ih _ _).cons img
  · intro low high
    simp [prunedMatchesChildren]
  · intro k c rest hc hrest low high
    rw [prunedMatchesChildren, nodesChildren_cons, List.map_append]
    refine List.Sublist.append ?_ (hrest low high)
    split
    · exact hc
    · exact List.nil_sublist _

theorem searchResults_perm (tree : BKTree H) (q : ImageInfo H) (r : Int) :
    List.Perm (searchResults hd tree q r) (match tree.Root with
      | none => []
      | some root => root.prunedMatches hd q r) := by
  obtain ⟨res, hres, hperm⟩ := Search_spec hd tree q r
  have h := Search_eq_done hd tree q r
  rw [hres] at h
  cases h
  exact hperm

/-- On a tree built by `Add`, with a metric and no overflow of `dist+radius` at
a stored image, the images `Search` returns are the stored images within the
radius that carry another name. -/
theorem searchResults_AddAll_mem (hm : IsMetric hd) (xs : List (ImageInfo H))
    (q : ImageInfo H) (r : Int) (hr : ∀ x ∈ xs, DistanceFrom hd x q + r ≤ maxInt)
    (i : ImageInfo H) :
    i ∈ searchResults hd (AddAll hd xs) q r ↔
      (i ∈ xs ∧ DistanceFrom hd i q ≤ r ∧ i.Name ≠ q.Name) := by
  have hperm := searchResults_perm hd (AddAll hd xs) q r
  have hitems := AddAll_items_perm hd xs
  have hinv := AddAll_subtreeDistances hd xs
  rw [hperm.mem_iff]
  cases hroot : (AddAll hd xs).Root with
  | none =>
    simp only [BKTree.items, BKTree.nodes, hroot, List.map_nil] at hitems
    have hx : xs = [] := List.Perm.eq_nil hitems.symm
    simp [hx]
  | some root =>
    simp only [BKTree.items, BKTree.nodes, hroot] at hitems
    simp only [BKTree.SubtreeDistances, BKTree.nodes, hroot] at hinv
    constructor
    · intro hi
      obtain ⟨h1, h2⟩ := prunedMatches_sound hd q r root i hi
      exact ⟨hitems.subset h1, h2⟩
    · rintro ⟨h1, h2, h3⟩
      exact prunedMatches_complete hd hm q r root hinv
        (fun x hx => hr x (hitems.subset hx)) i (hitems.symm.subset h1) h2 h3

/-- When the stored names are distinct, so are the names `Search` returns. -/
theorem searchResults_names_nodup (tree : BKTree H) (q : ImageInfo H) (r : Int)
    (hnames : (tree.items.map ImageInfo.Name).Nodup) :
    ((searchResults hd tree q r).map ImageInfo.Name).Nodup := by
  have hperm := (searchResults_perm hd tree q r).map ImageInfo.Name
  rw [hperm.nodup_iff]
  cases hroot : tree.Root with
  | none => simp
  | some root =>
    simp only [BKTree.items, BKTree.nodes, hroot] at hnames
    exact List.Nodup.sublist ((prunedMatches_sublist hd q r root).map ImageInfo.Name) hnames

theorem bfsOrder_perm (tree : BKTree H) :
    List.Perm (tree.bfsOrder.map bkTreeNode.Image) tree.items := by
  cases hroot : tree.Root with
  | none => simp [BKTree.bfsOrder, BKTree.items, BKTree.nodes, hroot]
  | some root =>
    have h : (allNodes [root]).length ≤ root.size := by
      simp [bkTreeNode.size, nodes_eq root]
    have hp := (bfsQueue_perm root.size [root] h).map bkTreeNode.Image
    rw [bfsOrder_eq] at hp
    simpa [BKTree.bfsOrder, BKTree.items, BKTree.nodes, hroot, allNodes] using hp

/-- `SearchSimilars` ends normally with the fold over the visited nodes, each
given by its name and the names of its matches. -/
theorem SearchSimilars_eq_entries (tree : BKTree H) (r : Int) :
    tree.SearchSimilars hd r =
      .done ((tree.bfsOrder.map (similarsEntry hd tree r)).foldl similarsStep []) := by
  cases hroot : tree.Root with
  | none => simp [BKTree.SearchSimilars, BKTree.bfsOrder, hroot]
  | some root =>
    have h : (allNodes [root]).length ≤ root.size := by
      simp [bkTreeNode.size, nodes_eq root]
    have hloop := SearchSimilarsLoop_spec hd tree r root.size [root] [] (by simp) h
    simp only [BKTree.SearchSimilars, BKTree.bfsOrder, hroot]
    rw [hloop, bfsOrder_eq, List.foldl_map]
    congr 1
    congr 1
    funext m n
    simp only [similarsStep, similarsEntry, List.foldl_map]
    rfl

end SimilarsPairs

section SimilarsClaim

variable {H : Type} (hd : H → H → Int)

/-- The list `SearchSimilars` leaves under the name of a visited node: the names
of its matches that are visited after it, in the order `Search` returns them. -/
theorem SearchSimilars_getList (hm : IsMetric hd) (xs : List (ImageInfo H))
    (hnames : (xs.map ImageInfo.Name).Nodup) (r : Int)
    (hov : ∀ x ∈ xs, ∀ y ∈ xs, DistanceFrom hd x y + r ≤ maxInt) :
    ∀ n ∈ (AddAll hd xs).bfsOrder,
      getList n.Image.Name
          (((AddAll hd xs).bfsOrder.map (similarsEntry hd (AddAll hd xs) r)).foldl
            similarsStep []) =
        ((searchResults hd (AddAll hd xs) n.Image r).map ImageInfo.Name).filter
          (fun b => decide (b ∉ (((AddAll hd xs).bfsOrder.map
            (similarsEntry hd (AddAll hd xs) r)).map Prod.fst).takeWhile
              (fun y => decide (y ≠ n.Image.Name)))) := by
  have horder : List.Perm ((AddAll hd xs).bfsOrder.map bkTreeNode.Image) xs :=
    (bfsOrder_perm (AddAll hd xs)).trans (AddAll_items_perm hd xs)
  have hstored : ∀ n ∈ (AddAll hd xs).bfsOrder, n.Image ∈ xs := fun n hn =>
    horder.subset (List.mem_map.2 ⟨n, hn, rfl⟩)
  have hfst : ((AddAll hd xs).bfsOrder.map (similarsEntry hd (AddAll hd xs) r)).map Prod.fst =
      ((AddAll hd xs).bfsOrder.map bkTreeNode.Image).map ImageInfo.Name := by
    simp [similarsEntry, Function.comp_def]
  have hnd : (((AddAll hd xs).bfsOrder.map (similarsEntry hd (AddAll hd xs) r)).map
      Prod.fst).Nodup := by
    rw [hfst, (horder.map ImageInfo.Name).nodup_iff]
    exact hnames
  have hmem := fun (q : ImageInfo H) (hq : q ∈ xs) (i : ImageInfo H) =>
    searchResults_AddAll_mem hd hm xs q r (fun x hx => hov x hx q hq) i
  have hself : ∀ e ∈ (AddAll hd xs).bfsOrder.map (similarsEntry hd (AddAll hd xs) r),
      e.1 ∉ e.2 := by
    intro e he hin
    obtain ⟨n, hn, rfl⟩ := List.mem_map.1 he
    simp only [similarsEntry] at hin
    obtain ⟨i, hi, hname⟩ := List.mem_map.1 hin
    exact ((hmem n.Image (hstored n hn) i).1 hi).2.2 hname
  have hsym : ∀ e ∈ (AddAll hd xs).bfsOrder.map (similarsEntry hd (AddAll hd xs) r),
      ∀ f ∈ (AddAll hd xs).bfsOrder.map (similarsEntry hd (AddAll hd xs) r),
      f.1 ∈ e.2 → e.1 ∈ f.2 := by
    intro e he f hf hin
    obtain ⟨n, hn, rfl⟩ := List.mem_map.1 he
    obtain ⟨p, hp, rfl⟩ := List.mem_map.1 hf
    simp only [similarsEntry] at hin ⊢
    obtain ⟨i, hi, hname⟩ := List.mem_map.1 hin
    obtain ⟨hix, hdist, hne⟩ := (hmem n.Image (hstored n hn) i).1 hi
    have hip : i = p.Image := List.inj_on_of_nodup_map hnames hix (hstored p hp) hname
    subst hip
    refine List.mem_map.2 ⟨n.Image, (hmem p.Image (hstored p hp) n.Image).2 ⟨hstored n hn, ?_, ?_⟩,
      rfl⟩
    · have : DistanceFrom hd n.Image p.Image = DistanceFrom hd p.Image n.Image := hm.2.1 _ _
      rw [this]
      exact hdist
    · exact fun h => hne h.symm
  intro n hn
  have hfold := foldl_similarsStep _ hnd hself hsym
    ((AddAll hd xs).bfsOrder.map (similarsEntry hd (AddAll hd xs) r)) [] [] rfl
    (by intro k hk; simp [hasKey] at hk) (by intro p hp; simp at hp)
    (similarsEntry hd (AddAll hd xs) r n) (List.mem_map.2 ⟨n, hn, rfl⟩)
  simpa [similarsEntry] using hfold

/-- C19 (as amended). For a tree built by `Add` from images with distinct
names, with a symmetric distance satisfying the triangle inequality, and every
radius `r` for which `distance(x, y) + r` stays within the 64-bit `int` range
for stored `x`, `y`: `SearchSimilars(r)` ends normally; the nodes it visits
carry exactly the stored images; and for every pair of nodes `na` visited
before `nb`, when `distance(a, b) ≤ r` the name of `b` occurs exactly once in the
list under the name of `a` and the name of `a` does not occur under the name of
`b`, and when `distance(a, b) > r` neither occurs under the other. -/
theorem search_similars_records_each_pair_once (hsymm : ∀ a b, hd a b = hd b a)
    (htri : ∀ a b c, hd a c ≤ hd a b + hd b c) (xs : List (ImageInfo H))
    (hnames : (xs.map ImageInfo.Name).Nodup) (r : Int)
    (hov : ∀ x ∈ xs, ∀ y ∈ xs, DistanceFrom hd x y + r ≤ maxInt) :
    ∃ m, (AddAll hd xs).SearchSimilars hd r = .done m ∧
      List.Perm ((AddAll hd xs).bfsOrder.map bkTreeNode.Image) xs ∧
      ∀ P Q R na nb, (AddAll hd xs).bfsOrder = P ++ na :: (Q ++ nb :: R) →
        (DistanceFrom hd na.Image nb.Image ≤ r →
          (getList na.Image.Name m).count nb.Image.Name = 1 ∧
            na.Image.Name ∉ getList nb.Image.Name m) ∧
        (r < DistanceFrom hd na.Image nb.Image →
          nb.Image.Name ∉ getList na.Image.Name m ∧
            na.Image.Name ∉ getList nb.Image.Name m) := by
  have hm : IsMetric hd := by
    refine ⟨?_, hsymm, htri⟩
    intro a b
    have h1 := htri a b a
    have h2 := htri a a b
    have h3 := hsymm a b
    omega
  have horder : List.Perm ((AddAll hd xs).bfsOrder.map bkTreeNode.Image) xs :=
    (bfsOrder_perm (AddAll hd xs)).trans (AddAll_items_perm hd xs)
  refine ⟨_, SearchSimilars_eq_entries hd (AddAll hd xs) r, horder, ?_⟩
  intro P Q R na nb hsplit
  have hget := SearchSimilars_getList hd hm xs hnames r hov
  have hna : na ∈ (AddAll hd xs).bfsOrder := by rw [hsplit]; simp
  have hnb : nb ∈ (AddAll hd xs).bfsOrder := by rw [hsplit]; simp
  have hax : na.Image ∈ xs := horder.subset (List.mem_map.2 ⟨na, hna, rfl⟩)
  have hbx : nb.Image ∈ xs := horder.subset (List.mem_map.2 ⟨nb, hnb, rfl⟩)
  have hfst : ((AddAll hd xs).bfsOrder.map (similarsEntry hd (AddAll hd xs) r)).map Prod.fst =
      P.map (fun n => n.Image.Name) ++ na.Image.Name ::
        (Q.map (fun n => n.Image.Name) ++ nb.Image.Name :: R.map (fun n => n.Image.Name)) := by
    rw [hsplit]
    simp [similarsEntry, Function.comp_def]
  have hnd : (P.map (fun n => n.Image.Name) ++ na.Image.Name ::
      (Q.map (fun n => n.Image.Name) ++ nb.Image.Name ::
        R.map (fun n => n.Image.Name))).Nodup := by
    rw [← hfst]
    have h1 : ((AddAll hd xs).bfsOrder.map (similarsEntry hd (AddAll hd xs) r)).map Prod.fst =
        ((AddAll hd xs).bfsOrder.map bkTreeNode.Image).map ImageInfo.Name := by
      simp [similarsEntry, Function.comp_def]
    rw [h1, (horder.map ImageInfo.Name).nodup_iff]
    exact hnames
  have haP : na.Image.Name ∉ P.map (fun n => n.Image.Name) := by
    intro h
    exact (List.nodup_append.1 hnd).2.2 h (List.mem_cons_self _ _)
  have hnd2 : ((P.map (fun n => n.Image.Name) ++ na.Image.Name ::
      Q.map (fun n => n.Image.Name)) ++ nb.Image.Name ::
        R.map (fun n => n.Image.Name)).Nodup := by
    simpa using hnd
  have hbPQ : nb.Image.Name ∉ P.map (fun n => n.Image.Name) ++ na.Image.Name ::
      Q.map (fun n => n.Image.Name) := by
    intro h
    exact (List.nodup_append.1 hnd2).2.2 h (List.mem_cons_self _ _)
  have hbP : nb.Image.Name ∉ P.map (fun n => n.Image.Name) := fun h =>
    hbPQ (List.mem_append_left _ h)
  have hab : na.Image.Name ≠ nb.Image.Name := by
    intro h
    exact hbPQ (by rw [← h]; simp)
  have htakeA : (((AddAll hd xs).bfsOrder.map (similarsEntry hd (AddAll hd xs) r)).map
      Prod.fst).takeWhile (fun y => decide (y ≠ na.Image.Name)) =
        P.map (fun n => n.Image.Name) := by
    rw [hfst]
    exact takeWhile_ne_front _ _ _ haP
  have htakeB : (((AddAll hd xs).bfsOrder.map (similarsEntry hd (AddAll hd xs) r)).map
      Prod.fst).takeWhile (fun y => decide (y ≠ nb.Image.Name)) =
        P.map (fun n => n.Image.Name) ++ na.Image.Name :: Q.map (fun n => n.Image.Name) := by
    rw [hfst]
    have := takeWhile_ne_front nb.Image.Name
      (P.map (fun n => n.Image.Name) ++ na.Image.Name :: Q.map (fun n => n.Image.Name))
      (R.map (fun n => n.Image.Name)) hbPQ
    simpa using this
  have hgetA := hget na hna
  have hgetB := hget nb hnb
  rw [htakeA] at hgetA
  rw [htakeB] at hgetB
  have hmemA := fun i => searchResults_AddAll_mem hd hm xs na.Image r
    (fun x hx => hov x hx _ hax) i
  have hnotB : na.Image.Name ∉ getList nb.Image.Name
      (((AddAll hd xs).bfsOrder.map (similarsEntry hd (AddAll hd xs) r)).foldl
        similarsStep []) := by
    rw [hgetB, List.mem_filter]
    rintro ⟨_, h⟩
    simp at h
  have hdistsymm : DistanceFrom hd nb.Image na.Image = DistanceFrom hd na.Image nb.Image :=
    hsymm _ _
  constructor
  · intro hdist
    refine ⟨?_, hnotB⟩
    have hin : nb.Image.Name ∈ getList na.Image.Name
        (((AddAll hd xs).bfsOrder.map (similarsEntry hd (AddAll hd xs) r)).foldl
          similarsStep []) := by
      rw [hgetA, List.mem_filter]
      refine ⟨List.mem_map.2 ⟨nb.Image, (hmemA nb.Image).2 ⟨hbx, ?_, fun h => hab h.symm⟩, rfl⟩,
        by simpa using hbP⟩
      rw [hdistsymm]
      exact hdist
    have hnodup : (getList na.Image.Name
        (((AddAll hd xs).bfsOrder.map (similarsEntry hd (AddAll hd xs) r)).foldl
          similarsStep [])).Nodup := by
      rw [hgetA]
      refine List.Nodup.filter _ (searchResults_names_nodup hd _ _ _ ?_)
      rw [((AddAll_items_perm hd xs).map ImageInfo.Name).nodup_iff]
      exact hnames
    exact List.count_eq_one_of_mem hnodup hin
  · intro hdist
    refine ⟨?_, hnotB⟩
    rw [hgetA, List.mem_filter]
    rintro ⟨hin, _⟩
    obtain ⟨i, hi, hname⟩ := List.mem_map.1 hin
    obtain ⟨hix, hd1, _⟩ := (hmemA i).1 hi
    have hib : i = nb.Image := List.inj_on_of_nodup_map hnames hix hbx hname
    subst hib
    rw [hdistsymm] at hd1
    omega

end SimilarsClaim

/-- Witness of C19 (as amended): one-bit hashes, the images `A`, `B`, `C` and
radius 1. -/
theorem search_similars_records_each_pair_once_witness :
    ((∀ a b, bitDistance a b = bitDistance b a) ∧
      (∀ a b c, bitDistance a c ≤ bitDistance a b + bitDistance b c) ∧
      ([(⟨false, "A"⟩ : ImageInfo Bool), ⟨true, "B"⟩, ⟨true, "C"⟩].map ImageInfo.Name).Nodup ∧
      (∀ x ∈ [(⟨false, "A"⟩ : ImageInfo Bool), ⟨true, "B"⟩, ⟨true, "C"⟩],
        ∀ y ∈ [(⟨false, "A"⟩ : ImageInfo Bool), ⟨true, "B"⟩, ⟨true, "C"⟩],
          DistanceFrom bitDistance x y + 1 ≤ maxInt)) ∧
    ∃ m, (AddAll bitDistance [⟨false, "A"⟩, ⟨true, "B"⟩, ⟨true, "C"⟩]).SearchSimilars
        bitDistance 1 = .done m ∧
      List.Perm ((AddAll bitDistance [⟨false, "A"⟩, ⟨true, "B"⟩, ⟨true, "C"⟩]).bfsOrder.map
        bkTreeNode.Image) [⟨false, "A"⟩, ⟨true, "B"⟩, ⟨true, "C"⟩] ∧
      ∀ P Q R na nb,
        (AddAll bitDistance [⟨false, "A"⟩, ⟨true, "B"⟩, ⟨true, "C"⟩]).bfsOrder =
          P ++ na :: (Q ++ nb :: R) →
        (DistanceFrom bitDistance na.Image nb.Image ≤ 1 →
          (getList na.Image.Name m).count nb.Image.Name = 1 ∧
            na.Image.Name ∉ getList nb.Image.Name m) ∧
        (1 < DistanceFrom bitDistance na.Image nb.Image →
          nb.Image.Name ∉ getList na.Image.Name m ∧
            na.Image.Name ∉ getList nb.Image.Name m) :=
  ⟨by decide,
    search_similars_records_each_pair_once bitDistance (by decide) (by decide)
      [⟨false, "A"⟩, ⟨true, "B"⟩, ⟨true, "C"⟩] (by decide) 1 (by decide)⟩

/-- Counterexample to C19 as stated: with one-bit hashes, the images `A` (hash
0), `B` and `C` (hash 1) with distinct names and radius `2^63 - 1`, the pairs
`{B, C}` (distance 0) and `{A, C}` (distance 1) are within the radius, yet
`SearchSimilars` returns the single entry `"A" ↦ ["B"]`: no association is
recorded for them in either direction. -/
theorem search_similars_pairs_counterexample :
    ((∀ a b, bitDistance a b = bitDistance b a) ∧
      (∀ a b c, bitDistance a c ≤ bitDistance a b + bitDistance b c) ∧
      ([(⟨false, "A"⟩ : ImageInfo Bool), ⟨true, "B"⟩, ⟨true, "C"⟩].map ImageInfo.Name).Nodup) ∧
    DistanceFrom bitDistance (⟨true, "B"⟩ : ImageInfo Bool) ⟨true, "C"⟩ ≤ maxInt ∧
    (AddAll bitDistance [⟨false, "A"⟩, ⟨true, "B"⟩, ⟨true, "C"⟩]).SearchSimilars
      bitDistance maxInt = .done [("A", ["B"])] ∧
    "C" ∉ getList "B" [("A", ["B"])] ∧ "B" ∉ getList "C" [("A", ["B"])] := by
  decide
